import Mathlib

/-!
Shallow embedding of the GeoRoute terrain-aware pathfinding core
(`georoute/processing/grid_pathfinder.py`,
`georoute/processing/gemini_obstacle_detector.py`,
`georoute/clients/terrain_data.py`) and proofs about it.

Modelling conventions:
* Python ints are `ℤ` (or `ℕ` where the source value is provably nonnegative),
  Python `int(x)` truncation-toward-zero is `pyInt`.
* Python floats are modelled by exact arithmetic: the A* scores are sums of
  the literals 1.414 / 1.0 plus `math.sqrt` of an integer, represented exactly
  by `FKey` (everything scaled by 500 so the rational part is an integer);
  GPS coordinates are `ℚ`; terrain costs are `ℝ` / `ℝ≥0∞`.
* `heapq` is a binary min-heap over tuples `(f, counter, cell)`; since the
  counters are pairwise distinct the popped element is the unique minimum,
  modelled by `selectMin` (and, for the determinism claim, by an arbitrary
  selector that returns a minimal element).
* Python dicts/sets keyed by cells are modelled as functions updated pointwise.
* `while` loops are modelled with an explicit fuel that provably dominates the
  number of iterations the source loop can make.
-/

namespace GeoRoute

/-- Grid cell coordinates, the Python `(row, col)` int pair. -/
abbrev Cell := ℤ × ℤ

/-- Exact model of an A* priority value `f = g + h` from `GridPathfinder._astar`.
The source stores floats: `g` is a sum of the step-cost literals 1.414 and 1.0,
and `h = math.sqrt(dr*dr + dc*dc)`.  We scale by 500, so `g` becomes the integer
`base` (1.414 becomes 707, 1.0 becomes 500) and `h` becomes `Real.sqrt rad` with
`rad = 250000 * (dr^2 + dc^2)`.  The represented real value is
`(base + Real.sqrt rad) / 500`; comparisons are exact. -/
structure FKey where
  base : ℤ
  rad : ℕ
deriving DecidableEq

/-- The real number represented by an `FKey` (up to the global factor 1/500,
which does not affect comparisons). -/
noncomputable def FKey.toReal (p : FKey) : ℝ := p.base + Real.sqrt p.rad

/-- Exact decision procedure for `p.toReal ≤ q.toReal`. -/
def FKey.ble (p q : FKey) : Bool :=
  if 0 ≤ q.base - p.base then
    if (p.rad : ℤ) - (q.rad : ℤ) - (q.base - p.base) ^ 2 ≤ 0 then true
    else decide ((((p.rad : ℤ) - (q.rad : ℤ) - (q.base - p.base) ^ 2)) ^ 2 ≤
      4 * (q.base - p.base) ^ 2 * (q.rad : ℤ))
  else
    if (q.rad : ℤ) - (p.rad : ℤ) - (q.base - p.base) ^ 2 < 0 then false
    else decide (4 * (q.base - p.base) ^ 2 * (p.rad : ℤ) ≤
      (((q.rad : ℤ) - (p.rad : ℤ) - (q.base - p.base) ^ 2)) ^ 2)

theorem FKey.ble_iff (p q : FKey) : p.ble q = true ↔ p.toReal ≤ q.toReal := by
  have hx0 : (0:ℝ) ≤ Real.sqrt p.rad := Real.sqrt_nonneg _
  have hy0 : (0:ℝ) ≤ Real.sqrt q.rad := Real.sqrt_nonneg _
  have hx2 : Real.sqrt (p.rad : ℝ) ^ 2 = (p.rad : ℝ) := Real.sq_sqrt (by positivity)
  have hy2 : Real.sqrt (q.rad : ℝ) ^ 2 = (q.rad : ℝ) := Real.sq_sqrt (by positivity)
  set x := Real.sqrt (p.rad : ℝ) with hxdef
  set y := Real.sqrt (q.rad : ℝ) with hydef
  have goal_iff : (p.toReal ≤ q.toReal) ↔ x ≤ ((q.base : ℝ) - p.base) + y := by
    unfold FKey.toReal
    constructor <;> intro h <;> linarith
  rw [goal_iff]
  set d : ℤ := q.base - p.base with hd
  have hdR : ((d : ℝ)) = (q.base : ℝ) - p.base := by push_cast [hd]; ring
  rw [← hdR]
  unfold FKey.ble
  rw [← hd]
  split_ifs with h1 h2 h3
  · -- 0 ≤ d and p.rad - q.rad - d² ≤ 0 : always true
    have h1R : (0:ℝ) ≤ (d:ℝ) := by exact_mod_cast h1
    have h2R : (p.rad : ℝ) - (q.rad : ℝ) - (d:ℝ)^2 ≤ 0 := by exact_mod_cast h2
    simp only [true_iff]
    have hsq : x ^ 2 ≤ ((d:ℝ) + y) ^ 2 := by nlinarith [mul_nonneg h1R hy0]
    have := le_of_pow_le_pow_left₀ (n := 2) (by norm_num) (by positivity) hsq
    linarith
  · -- 0 ≤ d and e := p.rad - q.rad - d² > 0 : true iff e² ≤ 4 d² q.rad
    have h1R : (0:ℝ) ≤ (d:ℝ) := by exact_mod_cast h1
    have h2R : (0:ℝ) < (p.rad : ℝ) - (q.rad : ℝ) - (d:ℝ)^2 := by
      have : ¬((p.rad : ℤ) - (q.rad : ℤ) - d ^ 2 ≤ 0) := h2
      push_neg at this
      exact_mod_cast this
    rw [decide_eq_true_iff]
    constructor
    · intro h
      have hR : ((p.rad : ℝ) - (q.rad : ℝ) - (d:ℝ)^2) ^ 2 ≤ 4 * (d:ℝ)^2 * (q.rad:ℝ) := by
        exact_mod_cast h
      -- e ≤ 2 d y, hence x² ≤ (d + y)²
      have h2dy : (0:ℝ) ≤ 2 * (d:ℝ) * y := by positivity
      have he : (p.rad : ℝ) - (q.rad : ℝ) - (d:ℝ)^2 ≤ 2 * (d:ℝ) * y := by
        have hsq : ((p.rad : ℝ) - (q.rad : ℝ) - (d:ℝ)^2) ^ 2 ≤ (2 * (d:ℝ) * y) ^ 2 := by
          nlinarith
        exact le_of_pow_le_pow_left₀ (by norm_num) h2dy hsq
      have hsq : x ^ 2 ≤ ((d:ℝ) + y) ^ 2 := by nlinarith
      have := le_of_pow_le_pow_left₀ (n := 2) (by norm_num) (by positivity) hsq
      linarith
    · intro h
      have hxdy : x ^ 2 ≤ ((d:ℝ) + y) ^ 2 := by
        exact pow_le_pow_left₀ hx0 h 2
      have he : (p.rad : ℝ) - (q.rad : ℝ) - (d:ℝ)^2 ≤ 2 * (d:ℝ) * y := by nlinarith
      have hsq : ((p.rad : ℝ) - (q.rad : ℝ) - (d:ℝ)^2) ^ 2 ≤ (2 * (d:ℝ) * y) ^ 2 := by
        have h2dy : (0:ℝ) ≤ 2 * (d:ℝ) * y := by positivity
        exact pow_le_pow_left₀ (le_of_lt h2R) he 2
      have : ((p.rad : ℝ) - (q.rad : ℝ) - (d:ℝ)^2) ^ 2 ≤ 4 * (d:ℝ)^2 * (q.rad:ℝ) := by
        nlinarith
      exact_mod_cast this
  · -- d < 0 and q.rad - p.rad - d² < 0 : always false
    have h1R : (d:ℝ) < 0 := by
      have : ¬((0:ℤ) ≤ d) := h1
      push_neg at this
      exact_mod_cast this
    have h3R : (q.rad : ℝ) - (p.rad : ℝ) - (d:ℝ)^2 < 0 := by exact_mod_cast h3
    simp only [false_iff, not_le]
    by_contra hcon
    push_neg at hcon
    have hdy : (0:ℝ) ≤ (d:ℝ) + y := le_trans hx0 hcon
    have hsq : x ^ 2 ≤ ((d:ℝ) + y) ^ 2 := pow_le_pow_left₀ hx0 hcon 2
    have hfac : 2 * (d:ℝ) * ((d:ℝ) + y) ≤ 0 :=
      mul_nonpos_of_nonpos_of_nonneg (by linarith) hdy
    nlinarith
  · -- d < 0 and e' := q.rad - p.rad - d² ≥ 0 : true iff 4 d² p.rad ≤ e'²
    have h1R : (d:ℝ) < 0 := by
      have : ¬((0:ℤ) ≤ d) := h1
      push_neg at this
      exact_mod_cast this
    have h3R : (0:ℝ) ≤ (q.rad : ℝ) - (p.rad : ℝ) - (d:ℝ)^2 := by
      have : ¬((q.rad : ℤ) - (p.rad : ℤ) - d ^ 2 < 0) := h3
      push_neg at this
      exact_mod_cast this
    rw [decide_eq_true_iff]
    constructor
    · intro h
      have hR : 4 * (d:ℝ)^2 * (p.rad:ℝ) ≤ ((q.rad : ℝ) - (p.rad : ℝ) - (d:ℝ)^2) ^ 2 := by
        exact_mod_cast h
      have h2dx : (0:ℝ) ≤ 2 * (-(d:ℝ)) * x := by
        have : (0:ℝ) ≤ -(d:ℝ) := by linarith
        positivity
      have he : 2 * (-(d:ℝ)) * x ≤ (q.rad : ℝ) - (p.rad : ℝ) - (d:ℝ)^2 := by
        have hsq : (2 * (-(d:ℝ)) * x) ^ 2 ≤ ((q.rad : ℝ) - (p.rad : ℝ) - (d:ℝ)^2) ^ 2 := by
          have hcalc : (2 * (-(d:ℝ)) * x) ^ 2 = 4 * (d:ℝ)^2 * x ^ 2 := by ring
          rw [hcalc, hx2]
          exact hR
        exact le_of_pow_le_pow_left₀ (by norm_num) h3R hsq
      have hsq : (x - (d:ℝ)) ^ 2 ≤ y ^ 2 := by
        have hcalc : (x - (d:ℝ)) ^ 2 = x ^ 2 + 2 * (-(d:ℝ)) * x + (d:ℝ)^2 := by ring
        rw [hcalc, hx2, hy2]
        linarith
      have hxd : (0:ℝ) ≤ x - (d:ℝ) := by linarith
      have := le_of_pow_le_pow_left₀ (n := 2) (by norm_num) hy0 hsq
      linarith
    · intro h
      have hxd : (0:ℝ) ≤ x - (d:ℝ) := by linarith
      have hsq : (x - (d:ℝ)) ^ 2 ≤ y ^ 2 := by
        have : x - (d:ℝ) ≤ y := by linarith
        exact pow_le_pow_left₀ hxd this 2
      have he : 2 * (-(d:ℝ)) * x ≤ (q.rad : ℝ) - (p.rad : ℝ) - (d:ℝ)^2 := by
        have hcalc : (x - (d:ℝ)) ^ 2 = x ^ 2 + 2 * (-(d:ℝ)) * x + (d:ℝ)^2 := by ring
        rw [hcalc, hx2, hy2] at hsq
        linarith
      have h2dx : (0:ℝ) ≤ 2 * (-(d:ℝ)) * x := by
        have : (0:ℝ) ≤ -(d:ℝ) := by linarith
        positivity
      have : 4 * (d:ℝ)^2 * (p.rad:ℝ) ≤ ((q.rad : ℝ) - (p.rad : ℝ) - (d:ℝ)^2) ^ 2 := by
        have hstep := pow_le_pow_left₀ h2dx he 2
        have hcalc : (2 * (-(d:ℝ)) * x) ^ 2 = 4 * (d:ℝ)^2 * x ^ 2 := by ring
        rw [hcalc, hx2] at hstep
        exact hstep
      exact_mod_cast this

/-- A heap entry `(f_score, counter, position)` as pushed by `_astar`. -/
abbrev Entry := FKey × ℕ × Cell

/-- The tuple order used by Python's `heapq` on `(f_score, counter, position)`:
lexicographic, and since counters are pairwise distinct the comparison never
reaches the position component. -/
def entryLe (a b : Entry) : Bool :=
  if a.1.ble b.1 then (if b.1.ble a.1 then decide (a.2.1 ≤ b.2.1) else true) else false

theorem entryLe_iff (a b : Entry) :
    entryLe a b = true ↔
      (a.1.toReal < b.1.toReal ∨ (a.1.toReal = b.1.toReal ∧ a.2.1 ≤ b.2.1)) := by
  unfold entryLe
  split_ifs with h1 h2
  · rw [FKey.ble_iff] at h1 h2
    simp only [decide_eq_true_iff]
    constructor
    · intro h
      exact Or.inr ⟨le_antisymm h1 h2, h⟩
    · intro h
      rcases h with h | h
      · exact absurd h2 (not_le_of_lt h)
      · exact h.2
  · rw [FKey.ble_iff] at h1
    rw [FKey.ble_iff] at h2
    simp only [true_iff]
    exact Or.inl (lt_of_le_not_le h1 h2)
  · rw [FKey.ble_iff] at h1
    simp only [false_iff]
    intro h
    rcases h with h | h
    · exact h1 (le_of_lt h)
    · exact h1 (le_of_eq h.1)

theorem entryLe_total (a b : Entry) : entryLe a b = true ∨ entryLe b a = true := by
  rw [entryLe_iff, entryLe_iff]
  rcases lt_trichotomy a.1.toReal b.1.toReal with h | h | h
  · exact Or.inl (Or.inl h)
  · rcases le_total a.2.1 b.2.1 with hc | hc
    · exact Or.inl (Or.inr ⟨h, hc⟩)
    · exact Or.inr (Or.inr ⟨h.symm, hc⟩)
  · exact Or.inr (Or.inl h)

theorem entryLe_trans {a b c : Entry} (hab : entryLe a b = true) (hbc : entryLe b c = true) :
    entryLe a c = true := by
  rw [entryLe_iff] at hab hbc ⊢
  rcases hab with h1 | h1 <;> rcases hbc with h2 | h2
  · exact Or.inl (lt_trans h1 h2)
  · exact Or.inl (lt_of_lt_of_le h1 (le_of_eq h2.1))
  · exact Or.inl (lt_of_le_of_lt (le_of_eq h1.1) h2)
  · exact Or.inr ⟨h1.1.trans h2.1, le_trans h1.2 h2.2⟩

theorem entryLe_refl (a : Entry) : entryLe a a = true := by
  rw [entryLe_iff]
  exact Or.inr ⟨rfl, le_refl _⟩

theorem entryLe_antisymm_counter {a b : Entry} (hab : entryLe a b = true)
    (hba : entryLe b a = true) : a.2.1 = b.2.1 := by
  rw [entryLe_iff] at hab hba
  rcases hab with h1 | ⟨he1, hc1⟩ <;> rcases hba with h2 | ⟨he2, hc2⟩
  · exfalso; linarith
  · exfalso; linarith
  · exfalso; linarith
  · exact le_antisymm hc1 hc2

/-- Pop the minimum entry from the open list, returning it together with the
remaining list (order preserved).  With pairwise-distinct counters this is
exactly what `heapq.heappop` returns. -/
def selectMin : List Entry → Option (Entry × List Entry)
  | [] => none
  | a :: l =>
    match selectMin l with
    | none => some (a, [])
    | some (m, l') => if entryLe a m then some (a, l) else some (m, a :: l')

/-- Specification of a valid heap-pop: any function that removes and returns
some minimal element of the list (order of the rest preserved).  `heapq` is
one such function. -/
def ValidSel (sel : List Entry → Option (Entry × List Entry)) : Prop :=
  (∀ l, sel l = none ↔ l = []) ∧
  (∀ l m l', sel l = some (m, l') →
    ∃ l₁ l₂, l = l₁ ++ m :: l₂ ∧ l' = l₁ ++ l₂ ∧ ∀ x ∈ l, entryLe m x = true)

theorem selectMin_eq_none (l : List Entry) : selectMin l = none ↔ l = [] := by
  cases l with
  | nil => simp [selectMin]
  | cons a t =>
    simp only [selectMin]
    cases h : selectMin t with
    | none => simp
    | some p =>
      obtain ⟨m, l'⟩ := p
      by_cases hle : entryLe a m <;> simp [hle]

theorem selectMin_validSel : ValidSel selectMin := by
  constructor
  · exact selectMin_eq_none
  · intro l
    induction l with
    | nil => intro m l' h; simp [selectMin] at h
    | cons a t ih =>
      intro m l' h
      simp only [selectMin] at h
      cases ht : selectMin t with
      | none =>
        rw [ht] at h
        have htnil : t = [] := (selectMin_eq_none t).mp ht
        simp only [Option.some.injEq, Prod.mk.injEq] at h
        refine ⟨[], [], ?_, ?_, ?_⟩
        · simp [← h.1, htnil]
        · simp [← h.2]
        · intro x hx
          rw [htnil] at hx
          simp at hx
          rw [hx, ← h.1]
          exact entryLe_refl _
      | some p =>
        obtain ⟨m₀, t'⟩ := p
        rw [ht] at h
        obtain ⟨t₁, t₂, htdec, ht'dec, hmin⟩ := ih m₀ t' ht
        by_cases hle : entryLe a m₀
        · simp only [hle, if_true, Option.some.injEq, Prod.mk.injEq] at h
          refine ⟨[], t, by simp [h.1], by simp [h.2], ?_⟩
          intro x hx
          rw [← h.1]
          rcases List.mem_cons.mp hx with hx | hx
          · rw [hx]
            exact entryLe_refl _
          · exact entryLe_trans hle (hmin x hx)
        · simp only [hle, Bool.false_eq_true, if_false, Option.some.injEq, Prod.mk.injEq] at h
          refine ⟨a :: t₁, t₂, ?_, ?_, ?_⟩
          · rw [← h.1]
            simp [htdec]
          · rw [← h.2, ht'dec]
            simp
          · intro x hx
            rw [← h.1]
            rcases List.mem_cons.mp hx with hx | hx
            · rw [hx]
              rcases entryLe_total m₀ a with hh | hh
              · exact hh
              · exact absurd hh (by simpa using hle)
            · exact hmin x hx

/-- The bounds check `0 <= r < grid_h and 0 <= c < grid_w` used throughout. -/
def inBounds (h w : ℕ) (c : Cell) : Prop :=
  0 ≤ c.1 ∧ c.1 < (h:ℤ) ∧ 0 ≤ c.2 ∧ c.2 < (w:ℤ)

instance (h w : ℕ) (c : Cell) : Decidable (inBounds h w c) :=
  inferInstanceAs (Decidable (0 ≤ c.1 ∧ c.1 < (h:ℤ) ∧ 0 ≤ c.2 ∧ c.2 < (w:ℤ)))

/-- The 8-connected movement directions with their step costs from
`GridPathfinder.__init__` (`allow_diagonal = True`, the only mode the source
ever constructs).  Costs are the source literals 1.414 / 1.0 scaled by 500. -/
def directions : List ((ℤ × ℤ) × ℕ) :=
  [((-1,-1),707), ((-1,0),500), ((-1,1),707),
   ((0,-1),500), ((0,1),500),
   ((1,-1),707), ((1,0),500), ((1,1),707)]

/-- The radicand of the scaled heuristic: `500 * sqrt((Δr)^2 + (Δc)^2)`
is `sqrt (250000 * ((Δr)^2 + (Δc)^2))`. -/
def heurRad (p e : Cell) : ℕ := (250000 * ((p.1 - e.1)^2 + (p.2 - e.2)^2)).toNat

/-- Mutable state of the `_astar` main loop. -/
structure AState where
  openList : List Entry
  gScore : Cell → Option ℕ
  cameFrom : Cell → Option Cell
  closedSet : Cell → Bool
  counter : ℕ

/-- The neighbor-loop body of `_astar` for one direction: bounds check,
obstacle check, closed check, then relax and push on improvement. -/
def relaxDir (mask : Cell → Bool) (h w : ℕ) (goal cur : Cell) (gcur : ℕ)
    (st : AState) (dir : (ℤ × ℤ) × ℕ) : AState :=
  let n : Cell := (cur.1 + dir.1.1, cur.2 + dir.1.2)
  if inBounds h w n then
    if mask n then st
    else if st.closedSet n then st
    else
      let tg := gcur + dir.2
      let better : Bool :=
        match st.gScore n with
        | none => true
        | some g => decide (tg < g)
      if better then
        { openList := st.openList ++ [(⟨(tg : ℤ), heurRad n goal⟩, st.counter + 1, n)]
          gScore := fun c => if c = n then some tg else st.gScore c
          cameFrom := fun c => if c = n then some cur else st.cameFrom c
          closedSet := st.closedSet
          counter := st.counter + 1 }
      else st
  else st

/-- Path reconstruction (`path = [current]; while current in came_from: ...`
then reversed), with fuel `h*w + 1`, which dominates the length of any
`came_from` chain the source builds. -/
def reconstruct (came : Cell → Option Cell) : ℕ → Cell → List Cell
  | 0, c => [c]
  | fuel+1, c =>
    match came c with
    | none => [c]
    | some p => reconstruct came fuel p ++ [c]

/-- The `_astar` main loop, parameterized by the heap-pop implementation
`sel` (see `ValidSel`); the canonical instantiation is `selectMin`. -/
def astarLoop (sel : List Entry → Option (Entry × List Entry))
    (mask : Cell → Bool) (h w : ℕ) (goal : Cell) : ℕ → AState → Option (List Cell)
  | 0, _ => none
  | fuel+1, st =>
    match sel st.openList with
    | none => none
    | some (en, rest) =>
      let cur := en.2.2
      if st.closedSet cur then
        astarLoop sel mask h w goal fuel { st with openList := rest }
      else if cur = goal then
        some (reconstruct st.cameFrom (h * w + 1) cur)
      else
        let st1 : AState :=
          { st with openList := rest,
                    closedSet := fun c => if c = cur then true else st.closedSet c }
        let gcur := (st.gScore cur).getD 0
        astarLoop sel mask h w goal fuel
          (directions.foldl (relaxDir mask h w goal cur gcur) st1)

/-- Initial `_astar` state: `open_set = [(heuristic(start), 0, start)]` and
`g_score = {start: 0}`. -/
def initState (s goal : Cell) : AState :=
  { openList := [(⟨0, heurRad s goal⟩, 0, s)]
    gScore := fun c => if c = s then some 0 else none
    cameFrom := fun _ => none
    closedSet := fun _ => false
    counter := 0 }

/-- `GridPathfinder._astar` with heap-pop `sel`.  The fuel `8*h*w + 2`
dominates the iteration count of the source loop: each iteration pops one
entry, and at most `8*h*w + 1` entries are ever pushed (every cell is
expanded at most once, pushing at most 8 entries). -/
def astarWith (sel : List Entry → Option (Entry × List Entry))
    (mask : Cell → Bool) (h w : ℕ) (s goal : Cell) : Option (List Cell) :=
  astarLoop sel mask h w goal (8 * h * w + 2) (initState s goal)

/-- `GridPathfinder._astar` as the source runs it (`heapq` pops the unique
minimum of the `(f, counter, cell)` tuples). -/
def astar (mask : Cell → Bool) (h w : ℕ) (s goal : Cell) : Option (List Cell) :=
  astarWith selectMin mask h w s goal

/-- One direction of the neighbor loop of `_find_nearest_clear`: enqueue
the neighbor `c + d` if it is in bounds and unvisited, marking it visited. -/
def enqStep (h w : ℕ) (c : Cell) (acc : List Cell × (Cell → Bool)) (d : ℤ × ℤ) :
    List Cell × (Cell → Bool) :=
  let n : Cell := (c.1 + d.1, c.2 + d.2)
  if inBounds h w n ∧ acc.2 n = false then
    (acc.1 ++ [n], fun x => if x = n then true else acc.2 x)
  else acc

/-- The neighbor loop of `_find_nearest_clear`: enqueue the in-bounds
unvisited 4-neighbors of `c`, marking them visited. -/
def bfsEnqueue (h w : ℕ) (c : Cell) (acc : List Cell × (Cell → Bool)) :
    List Cell × (Cell → Bool) :=
  [((-1:ℤ),(0:ℤ)), (1,0), (0,-1), (0,1)].foldl (enqStep h w c) acc

/-- The BFS loop of `GridPathfinder._find_nearest_clear`: pop the queue
front, return it if clear, otherwise enqueue the unvisited in-bounds
4-neighbors; `none` when the queue empties. -/
def bfsLoop (mask : Cell → Bool) (h w : ℕ) : ℕ → List Cell → (Cell → Bool) → Option Cell
  | 0, _, _ => none
  | _+1, [], _ => none
  | fuel+1, c :: rest, vis =>
    if mask c = false then some c
    else
      let acc := bfsEnqueue h w c (rest, vis)
      bfsLoop mask h w fuel acc.1 acc.2

/-- `GridPathfinder._find_nearest_clear`; on queue exhaustion the source
returns the original position.  The fuel `2*h*w + 1` dominates the measure
`2*|unvisited| + |queue|`, which strictly decreases every iteration. -/
def find_nearest_clear (mask : Cell → Bool) (h w : ℕ) (s : Cell) : Cell :=
  (bfsLoop mask h w (2 * h * w + 1) [s] (fun x => if x = s then true else false)).getD s

/-- Python `int(x)` on a rational: truncation toward zero. -/
def pyInt (q : ℚ) : ℤ := if 0 ≤ q then ⌊q⌋ else ⌈q⌉

/-- The geographic bounds dict `{"north", "south", "east", "west"}`. -/
structure Bounds where
  north : ℚ
  south : ℚ
  east : ℚ
  west : ℚ
deriving DecidableEq

/-- `GridPathfinder._grid_to_gps` (also the inner `grid_to_gps` closure of
`generate_tactical_routes`): row 0 is the north edge, col 0 the west edge. -/
def grid_to_gps (row col : ℚ) (b : Bounds) (h w : ℕ) : ℚ × ℚ :=
  (b.north - (row / (h : ℚ)) * (b.north - b.south),
   b.west + (col / (w : ℚ)) * (b.east - b.west))

/-- `PathResult` (waypoints carried as their `(lat, lon)` values). -/
structure PathResult where
  path_valid : Bool
  waypoints : List (ℚ × ℚ)
  distance_cells : ℤ
  path_clear : Bool
deriving DecidableEq

/-- `GridPathfinder._fallback_path`: 10 points interpolated along the
straight segment from `start_grid` to `end_grid`, flagged
`path_clear = False` (and `path_valid = True`). -/
def fallback_path (s e : Cell) (b : Bounds) (h w : ℕ) : PathResult :=
  { path_valid := true
    waypoints := (List.range 10).map (fun (i : ℕ) =>
      let t : ℚ := (i : ℚ) / 9
      let row := pyInt ((s.1 : ℚ) + t * ((e.1 : ℚ) - (s.1 : ℚ)))
      let col := pyInt ((s.2 : ℚ) + t * ((e.2 : ℚ) - (s.2 : ℚ)))
      grid_to_gps (row : ℚ) (col : ℚ) b h w)
    distance_cells := ((e.1 - s.1).natAbs : ℤ) + ((e.2 - s.2).natAbs : ℤ)
    path_clear := false }

/-- One step of the direction-change scan of `GridPathfinder._simplify_path`:
`pr` is the pair `(path[i-1], path[i])`. -/
def simplifyStep (acc : List Cell × Option (ℤ × ℤ)) (pr : Cell × Cell) :
    List Cell × Option (ℤ × ℤ) :=
  let d : ℤ × ℤ := (pr.2.1 - pr.1.1, pr.2.2 - pr.1.2)
  if some d ≠ acc.2 ∧ pr.1 ∉ acc.1 then (acc.1 ++ [pr.1], some d)
  else (acc.1, some d)

/-- `GridPathfinder._simplify_path` (the source default `max_waypoints = 15`
is passed explicitly by every caller of this model). -/
def simplify_path (path : List Cell) (maxW : ℕ) : List Cell :=
  if path.length ≤ maxW then path
  else if path.length ≤ 2 then path
  else
    let scan := (path.zip path.tail).foldl simplifyStep ([path.headI], none)
    let simplified := scan.1 ++ [path.getLastD (0, 0)]
    if maxW < simplified.length then
      let step : ℚ := (simplified.length : ℚ) / (maxW : ℚ)
      let idxs := ((List.range (maxW - 1)).map (fun (i : ℕ) => pyInt ((i : ℚ) * step)))
        ++ [(simplified.length : ℤ) - 1]
      idxs.map (fun i => simplified.getD i.toNat (0, 0))
    else simplified

/-- The endpoint handling of `find_path`: a start/end lying on an obstacle
cell is replaced by the nearest clear cell. -/
def snap (mask : Cell → Bool) (h w : ℕ) (c : Cell) : Cell :=
  if mask c then find_nearest_clear mask h w c else c

/-- `GridPathfinder.find_path` (waypoints carried as `(lat, lon)` values). -/
def find_path (mask : Cell → Bool) (h w : ℕ) (s e : Cell) (b : Bounds) : PathResult :=
  if ¬ inBounds h w s then fallback_path s e b h w
  else if ¬ inBounds h w e then fallback_path s e b h w
  else
    let s1 := snap mask h w s
    let e1 := snap mask h w e
    match astar mask h w s1 e1 with
    | none => fallback_path s e b h w
    | some pathGrid =>
      { path_valid := true
        waypoints := (simplify_path pathGrid 15).map
          (fun c => grid_to_gps (c.1 : ℚ) (c.2 : ℚ) b h w)
        distance_cells := (pathGrid.length : ℤ)
        path_clear := true }

/-- The coordinate content of `_convert_waypoints`: empty input becomes the
direct `[start, end]` line, then the first waypoint is forced to `start_gps`
and the last to `end_gps`.  (The haversine `distance_from_start_m`
decoration and the constant `elevation_m`/`terrain_type`/`risk_level`/
`reasoning` fields of the waypoint dicts affect no claim and are omitted.) -/
def convert_waypoints (wps : List (ℚ × ℚ)) (s e : ℚ × ℚ) : List (ℚ × ℚ) :=
  let l := if wps = [] then [s, e] else wps
  let l1 := s :: l.tail
  l1.dropLast ++ [e]

/-- One generated route: id, waypoint coordinates and `path_clear`
(the name/description strings affect no claim and are omitted). -/
structure Route where
  route_id : ℕ
  waypoints : List (ℚ × ℚ)
  path_clear : Bool
deriving DecidableEq

/-- The inner `gps_to_grid` closure of `generate_tactical_routes`
(truncating int conversion, then clamping into the grid). -/
def gps_to_grid (b : Bounds) (h w : ℕ) (lat lon : ℚ) : Cell :=
  let row := pyInt ((b.north - lat) / (b.north - b.south) * (h : ℚ))
  let col := pyInt ((lon - b.west) / (b.east - b.west) * (w : ℚ))
  (max 0 (min ((h:ℤ) - 1) row), max 0 (min ((w:ℤ) - 1) col))

/-- `generate_tactical_routes` (the `routes` return value; the `debug_info`
dict and the log printing affect no claim and are omitted).  Python's floor
division `// 2` and `// 5` agree with `Int` division here because the
operands are nonnegative. -/
def generate_tactical_routes (mask : Cell → Bool) (h w : ℕ)
    (start_gps end_gps : ℚ × ℚ) (b : Bounds) (single_route : Bool) : List Route :=
  let sg := gps_to_grid b h w start_gps.1 start_gps.2
  let eg := gps_to_grid b h w end_gps.1 end_gps.2
  let result1 := find_path mask h w sg eg b
  let routes1 : List Route :=
    [{ route_id := 1
       waypoints := convert_waypoints result1.waypoints start_gps end_gps
       path_clear := result1.path_clear }]
  if single_route then routes1
  else
    let minRow := min sg.1 eg.1
    let maxRow := max sg.1 eg.1
    let minCol := min sg.2 eg.2
    let maxCol := max sg.2 eg.2
    let padding : ℤ := max 3 ((h : ℤ) / 5)
    let goingDown := sg.1 < eg.1
    let goingRight := sg.2 < eg.2
    let leftMid0 : Cell :=
      if goingDown ∧ goingRight then
        (min ((h:ℤ) - 2) (maxRow + padding / 2), max 1 (minCol - padding / 2))
      else if goingDown ∧ ¬ goingRight then
        (min ((h:ℤ) - 2) (maxRow + padding / 2), min ((w:ℤ) - 2) (maxCol + padding / 2))
      else if ¬ goingDown ∧ goingRight then
        (max 1 (minRow - padding / 2), max 1 (minCol - padding / 2))
      else
        (max 1 (minRow - padding / 2), min ((w:ℤ) - 2) (maxCol + padding / 2))
    let rightMid0 : Cell :=
      if goingDown ∧ goingRight then
        (max 1 (minRow - padding / 2), min ((w:ℤ) - 2) (maxCol + padding / 2))
      else if goingDown ∧ ¬ goingRight then
        (max 1 (minRow - padding / 2), max 1 (minCol - padding / 2))
      else if ¬ goingDown ∧ goingRight then
        (min ((h:ℤ) - 2) (maxRow + padding / 2), min ((w:ℤ) - 2) (maxCol + padding / 2))
      else
        (min ((h:ℤ) - 2) (maxRow + padding / 2), max 1 (minCol - padding / 2))
    let leftMid : Cell :=
      (max 0 (min ((h:ℤ) - 1) leftMid0.1), max 0 (min ((w:ℤ) - 1) leftMid0.2))
    let rightMid : Cell :=
      (max 0 (min ((h:ℤ) - 1) rightMid0.1), max 0 (min ((w:ℤ) - 1) rightMid0.2))
    let r2a := find_path mask h w sg leftMid b
    let r2b := find_path mask h w leftMid eg b
    let r3a := find_path mask h w sg rightMid b
    let r3b := find_path mask h w rightMid eg b
    routes1 ++
      [{ route_id := 2
         waypoints := convert_waypoints (r2a.waypoints.dropLast ++ r2b.waypoints)
           start_gps end_gps
         path_clear := r2a.path_clear && r2b.path_clear },
       { route_id := 3
         waypoints := convert_waypoints (r3a.waypoints.dropLast ++ r3b.waypoints)
           start_gps end_gps
         path_clear := r3a.path_clear && r3b.path_clear }]

/-! Helper lemmas. -/

theorem pyInt_eq (q : ℚ) (z : ℤ) (h0 : 0 ≤ q) (h1 : (z:ℚ) ≤ q) (h2 : q < (z:ℚ) + 1) :
    pyInt q = z := by
  unfold pyInt
  rw [if_pos h0, Int.floor_eq_iff]
  exact ⟨h1, by exact_mod_cast h2⟩

theorem find_path_out_of_bounds (mask : Cell → Bool) (h w : ℕ) (s e : Cell) (b : Bounds)
    (hout : ¬ inBounds h w s ∨ ¬ inBounds h w e) :
    find_path mask h w s e b = fallback_path s e b h w := by
  unfold find_path
  by_cases hs : inBounds h w s
  · have he : ¬ inBounds h w e := by
      rcases hout with h1 | h1
      · exact absurd hs h1
      · exact h1
    rw [if_neg (not_not_intro hs), if_pos he]
  · rw [if_pos hs]

theorem fallback_waypoints_len (s e : Cell) (b : Bounds) (h w : ℕ) :
    (fallback_path s e b h w).waypoints.length = 10 := by
  unfold fallback_path
  simp only [List.length_map, List.length_range]

/-! ### Claim theorems -/

/-- Obstacle masks used in concrete scenarios. -/
def emptyMask : Cell → Bool := fun _ => false

/-- A single fully-blocked cell (1×1 all-obstacle grid). -/
def fullMask : Cell → Bool := fun _ => true

/-- A closed ring of obstacles around cell (2,2) on a 5×5 grid. -/
def ringMask : Cell → Bool := fun c =>
  decide (c ∈ [((1,1):Cell),(1,2),(1,3),(2,1),(2,3),(3,1),(3,2),(3,3)])

/-- C10: if `find_path` is called with an out-of-bounds start or end cell it
does not run the search: it returns the straight-line fallback (exactly 10
waypoints, `path_clear = false`, `path_valid = true`), and the obstacle mask
is never consulted (any mask of the same shape gives the same result).
(On a zero-sized grid the Python source would instead raise
`ZeroDivisionError` inside `_grid_to_gps`; the spec classifies zero-sized
grids as `DegenerateGrid` errors, so they are outside this claim.) -/
theorem C10_out_of_bounds_fallback (mask mask' : Cell → Bool) (h w : ℕ)
    (s e : Cell) (b : Bounds) (_hh : 1 ≤ h) (_hw : 1 ≤ w)
    (hout : ¬ inBounds h w s ∨ ¬ inBounds h w e) :
    find_path mask h w s e b = fallback_path s e b h w ∧
    (find_path mask h w s e b).waypoints.length = 10 ∧
    (find_path mask h w s e b).path_clear = false ∧
    (find_path mask h w s e b).path_valid = true ∧
    find_path mask h w s e b = find_path mask' h w s e b := by
  have h1 := find_path_out_of_bounds mask h w s e b hout
  have h2 := find_path_out_of_bounds mask' h w s e b hout
  refine ⟨h1, ?_, ?_, ?_, ?_⟩
  · rw [h1]
    exact fallback_waypoints_len s e b h w
  · rw [h1]
    rfl
  · rw [h1]
    rfl
  · rw [h1, h2]

/-- C10 witness: a 2×2 grid with start (5,0) out of bounds. -/
theorem C10_witness :
    ((1:ℕ) ≤ 2 ∧ (¬ inBounds 2 2 ((5:ℤ),(0:ℤ)) ∨ ¬ inBounds 2 2 ((1:ℤ),(1:ℤ)))) ∧
    (find_path emptyMask 2 2 (5,0) (1,1) ⟨1,0,1,0⟩ =
      fallback_path (5,0) (1,1) ⟨1,0,1,0⟩ 2 2 ∧
     (find_path emptyMask 2 2 (5,0) (1,1) ⟨1,0,1,0⟩).waypoints.length = 10 ∧
     (find_path emptyMask 2 2 (5,0) (1,1) ⟨1,0,1,0⟩).path_clear = false ∧
     (find_path emptyMask 2 2 (5,0) (1,1) ⟨1,0,1,0⟩).path_valid = true ∧
     find_path emptyMask 2 2 (5,0) (1,1) ⟨1,0,1,0⟩ =
       find_path fullMask 2 2 (5,0) (1,1) ⟨1,0,1,0⟩) :=
  ⟨⟨by norm_num, by decide⟩,
   C10_out_of_bounds_fallback emptyMask fullMask 2 2 (5,0) (1,1) ⟨1,0,1,0⟩
     (by norm_num) (by norm_num) (by decide)⟩

/-- C2 counterexample: on the 5×5 grid whose obstacles form a closed ring
around the start cell (2,2), the A* open set empties (`_astar` returns
`None`) and `find_path` returns the fallback — but with `path_valid = true`,
not the `valid = false` stated by the claim (the fallback is signalled by
`path_clear = false` only). -/
theorem C2_counterexample :
    astar ringMask 5 5 (2,2) (0,0) = none ∧
    (find_path ringMask 5 5 (2,2) (0,0) ⟨1,0,1,0⟩).path_valid = true := by
  constructor
  · rfl
  · rfl

/-- C2 (amended): whenever the A* open set empties before the goal is
reached (`_astar` returns `None`) on in-bounds endpoints, `find_path` does
not raise and returns the straight-line fallback: `path_clear = false`
(the not-obstacle-checked marker), `path_valid = true` (not false, as the
original claim said), and exactly 10 ≥ 2 waypoints interpolated on the
straight segment from start to end. -/
theorem C2_open_set_empty_fallback (mask : Cell → Bool) (h w : ℕ) (s e : Cell)
    (b : Bounds) (hs : inBounds h w s) (he : inBounds h w e)
    (hnone : astar mask h w (snap mask h w s) (snap mask h w e) = none) :
    find_path mask h w s e b = fallback_path s e b h w ∧
    (find_path mask h w s e b).path_valid = true ∧
    (find_path mask h w s e b).path_clear = false ∧
    (find_path mask h w s e b).waypoints.length = 10 ∧
    2 ≤ (find_path mask h w s e b).waypoints.length ∧
    ∀ i : ℕ, i < 10 →
      (find_path mask h w s e b).waypoints.getD i (0, 0) =
        grid_to_gps
          ((pyInt ((s.1 : ℚ) + ((i : ℚ) / 9) * ((e.1 : ℚ) - (s.1 : ℚ)))) : ℚ)
          ((pyInt ((s.2 : ℚ) + ((i : ℚ) / 9) * ((e.2 : ℚ) - (s.2 : ℚ)))) : ℚ) b h w := by
  have h1 : find_path mask h w s e b = fallback_path s e b h w := by
    unfold find_path
    rw [if_neg (not_not_intro hs), if_neg (not_not_intro he)]
    simp only [hnone]
  refine ⟨h1, by rw [h1]; rfl, by rw [h1]; rfl, ?_, ?_, ?_⟩
  · rw [h1]
    exact fallback_waypoints_len s e b h w
  · rw [h1, fallback_waypoints_len s e b h w]
    norm_num
  · intro i hi
    rw [h1]
    unfold fallback_path
    simp only [List.getD_eq_getElem?_getD, List.getElem?_map, List.getElem?_range, hi,
      if_pos]
    rfl

/-- C2 witness: the closed-ring scenario instantiating the amended claim. -/
theorem C2_witness :
    (inBounds 5 5 ((2:ℤ),(2:ℤ)) ∧ inBounds 5 5 ((0:ℤ),(0:ℤ)) ∧
     astar ringMask 5 5 (snap ringMask 5 5 (2,2)) (snap ringMask 5 5 (0,0)) = none) ∧
    ((find_path ringMask 5 5 (2,2) (0,0) ⟨1,0,1,0⟩).path_clear = false ∧
     2 ≤ (find_path ringMask 5 5 (2,2) (0,0) ⟨1,0,1,0⟩).waypoints.length) :=
  ⟨⟨by decide, by decide, by rfl⟩,
   (C2_open_set_empty_fallback ringMask 5 5 (2,2) (0,0) ⟨1,0,1,0⟩
      (by decide) (by decide) (by rfl)).2.2.1,
   (C2_open_set_empty_fallback ringMask 5 5 (2,2) (0,0) ⟨1,0,1,0⟩
      (by decide) (by decide) (by rfl)).2.2.2.2.1⟩

/-- C1 counterexample: on the 1×1 all-obstacle grid with start = end =
(0,0), the nearest-clear-cell search fails and keeps (0,0), A* returns the
one-cell path [(0,0)], and `find_path` reports `path_clear = true` although
the path's only cell is an obstacle. -/
theorem C1_counterexample :
    (find_path fullMask 1 1 (0,0) (0,0) ⟨1,0,1,0⟩).path_clear = true ∧
    astar fullMask 1 1 (snap fullMask 1 1 (0,0)) (snap fullMask 1 1 (0,0)) =
      some [(0,0)] ∧
    fullMask (0,0) = true := by
  exact ⟨by rfl, by rfl, rfl⟩

/-! ### Cell-path costs (for C3) -/

/-- One 8-connected step: both coordinates change by at most one and the
cells differ. -/
def IsStep (a b : Cell) : Prop :=
  max (b.1 - a.1).natAbs (b.2 - a.2).natAbs = 1

instance (a b : Cell) : Decidable (IsStep a b) :=
  inferInstanceAs (Decidable (max (b.1 - a.1).natAbs (b.2 - a.2).natAbs = 1))

/-- The cost of one step of `self.costs`, scaled by 500
(diagonal 1.414 → 707, cardinal 1.0 → 500). -/
def stepScaledCost (a b : Cell) : ℕ := if a.1 ≠ b.1 ∧ a.2 ≠ b.2 then 707 else 500

/-- Total scaled cost along a cell path; dividing by 500 gives the float
cost the source would accumulate in `g_score`. -/
def pathScaledCost : List Cell → ℕ
  | [] => 0
  | [_] => 0
  | a :: b :: t => stepScaledCost a b + pathScaledCost (b :: t)

theorem stepScaledCost_lower (x y : Cell) (hs : IsStep x y) :
    707 * ((y.1 + y.2) - (x.1 + x.2)) ≤ 2 * (stepScaledCost x y : ℤ) := by
  unfold IsStep at hs
  have h1 : (y.1 - x.1).natAbs ≤ 1 := le_trans (Nat.le_max_left _ _) (le_of_eq hs)
  have h2 : (y.2 - x.2).natAbs ≤ 1 := le_trans (Nat.le_max_right _ _) (le_of_eq hs)
  unfold stepScaledCost
  split_ifs with hd
  · omega
  · rcases not_and_or.mp hd with h | h <;> push_neg at h <;> omega

/-- Potential-function lower bound: along any 8-connected cell path, twice
the scaled cost dominates `707 * Δ(row+col)`. -/
theorem pathScaledCost_potential (p : List Cell) (hp : p.Chain' IsStep) :
    ∀ a z : Cell, p.head? = some a → p.getLast? = some z →
      707 * ((z.1 + z.2) - (a.1 + a.2)) ≤ 2 * (pathScaledCost p : ℤ) := by
  induction p with
  | nil =>
    intro a z ha hz
    simp at ha
  | cons x rest ih =>
    intro a z ha hz
    simp only [List.head?_cons, Option.some.injEq] at ha
    cases rest with
    | nil =>
      simp only [List.getLast?_singleton, Option.some.injEq] at hz
      rw [← ha, ← hz]
      simp [pathScaledCost]
    | cons y t =>
      have hchain := List.chain'_cons.mp hp
      have hz' : (y :: t).getLast? = some z := by
        rw [← hz, List.getLast?_cons_cons]
      have ihy := ih hchain.2 y z (by simp) hz'
      have hstep := stepScaledCost_lower x y hchain.1
      have hcost : pathScaledCost (x :: y :: t) = stepScaledCost x y + pathScaledCost (y :: t) := rfl
      rw [← ha, hcost]
      push_cast
      linarith

/-- C3 counterexample: on the 5×5 obstacle-free grid the A* path from (0,0)
to (4,4) is the main diagonal whose cost is 4 × 1.414 = 5.656 exactly (scaled:
2828/500) — which is *not* `4 × √2 ≈ 5.65685` and misses it by more than
1/1250 = 0.0008, far beyond floating-point tolerance (doubles resolve ~1e-15
at this magnitude): the code's diagonal step cost is the literal 1.414, not
√2. -/
theorem C3_counterexample :
    astar emptyMask 5 5 (0,0) (4,4) = some [(0,0),(1,1),(2,2),(3,3),(4,4)] ∧
    (pathScaledCost [(0,0),(1,1),(2,2),(3,3),(4,4)] : ℝ) / 500 ≠ 4 * Real.sqrt 2 ∧
    1/1250 < |(pathScaledCost [(0,0),(1,1),(2,2),(3,3),(4,4)] : ℝ) / 500 - 4 * Real.sqrt 2| := by
  have hcost : pathScaledCost [((0,0) : Cell),(1,1),(2,2),(3,3),(4,4)] = 2828 := by rfl
  have hs0 : (0:ℝ) ≤ Real.sqrt 2 := Real.sqrt_nonneg 2
  have hs2 : Real.sqrt 2 ^ 2 = 2 := Real.sq_sqrt (by norm_num)
  have hgt : (1.4142:ℝ) < Real.sqrt 2 := by
    by_contra hcon
    push_neg at hcon
    have hn1 : (0:ℝ) ≤ 1.4142 - Real.sqrt 2 := by linarith
    have hn2 : (0:ℝ) ≤ 1.4142 + Real.sqrt 2 := by linarith
    nlinarith [mul_nonneg hn1 hn2]
  refine ⟨by rfl, ?_, ?_⟩
  · rw [hcost]
    push_cast
    intro hcon
    have hseq : Real.sqrt 2 = 707/500 := by linarith
    rw [hseq] at hs2
    norm_num at hs2
  · rw [hcost]
    push_cast
    rw [abs_of_neg (by nlinarith)]
    nlinarith

/-- C3 (amended): the code's diagonal step cost is the literal 1.414, not
√2.  (i) Any 8-connected path from (0,0) to (n-1,n-1) has cost at least
(n-1) × 1.414 (scaled: `707*(n-1) ≤ pathScaledCost`); (ii) 1.414 is within
3/10000 of √2, so the optimal cost `(n-1) × 1.414` is within
`0.0003 × (n-1)` of the claimed `(n-1) × √2`; (iii) on the 5×5 grid A*
returns the main diagonal, attaining the bound: exactly 5 cells, scaled cost
4 × 707 (i.e. 4 × 1.414 = 5.656 ≈ 5.657). -/
theorem C3_empty_grid_diagonal_cost :
    (∀ (m : ℕ) (p : List Cell), p.Chain' IsStep →
      p.head? = some (0, 0) → p.getLast? = some ((m:ℤ) - 1, (m:ℤ) - 1) →
      707 * ((m:ℤ) - 1) ≤ (pathScaledCost p : ℤ)) ∧
    |(707:ℝ)/500 - Real.sqrt 2| ≤ 3/10000 ∧
    astar emptyMask 5 5 (0,0) (4,4) = some [(0,0),(1,1),(2,2),(3,3),(4,4)] ∧
    pathScaledCost [(0,0),(1,1),(2,2),(3,3),(4,4)] = 4 * 707 ∧
    ([(0,0),(1,1),(2,2),(3,3),(4,4)] : List Cell).length = 5 := by
  refine ⟨?_, ?_, by rfl, by rfl, by rfl⟩
  · intro m p hp ha hz
    have := pathScaledCost_potential p hp (0,0) ((m:ℤ) - 1, (m:ℤ) - 1) ha hz
    simp only at this
    linarith
  · have hs0 : (0:ℝ) ≤ Real.sqrt 2 := Real.sqrt_nonneg 2
    have hs2 : Real.sqrt 2 ^ 2 = 2 := Real.sq_sqrt (by norm_num)
    have hgt : (1.414:ℝ) < Real.sqrt 2 := by
      by_contra hcon
      push_neg at hcon
      have hn1 : (0:ℝ) ≤ 1.414 - Real.sqrt 2 := by linarith
      have hn2 : (0:ℝ) ≤ 1.414 + Real.sqrt 2 := by linarith
      nlinarith [mul_nonneg hn1 hn2]
    have hlt : Real.sqrt 2 < 1.4143 := by
      by_contra hcon
      push_neg at hcon
      have hn1 : (0:ℝ) ≤ Real.sqrt 2 - 1.4143 := by linarith
      have hn2 : (0:ℝ) ≤ Real.sqrt 2 + 1.4143 := by linarith
      nlinarith [mul_nonneg hn1 hn2]
    rw [abs_le]
    constructor <;> nlinarith

/-- C3 witness: the diagonal path on the 5×5 grid instantiates the general
lower bound, attaining it with equality. -/
theorem C3_empty_grid_diagonal_cost_witness :
    (([(0,0),(1,1),(2,2),(3,3),(4,4)] : List Cell).Chain' IsStep ∧
     ([(0,0),(1,1),(2,2),(3,3),(4,4)] : List Cell).head? = some (0, 0) ∧
     ([(0,0),(1,1),(2,2),(3,3),(4,4)] : List Cell).getLast? = some ((5:ℤ) - 1, (5:ℤ) - 1)) ∧
    707 * ((5:ℕ):ℤ) - 707 ≤ (pathScaledCost [(0,0),(1,1),(2,2),(3,3),(4,4)] : ℤ) := by
  have hchain : ([(0,0),(1,1),(2,2),(3,3),(4,4)] : List Cell).Chain' IsStep := by
    refine List.chain'_cons.mpr ⟨by decide, ?_⟩
    refine List.chain'_cons.mpr ⟨by decide, ?_⟩
    refine List.chain'_cons.mpr ⟨by decide, ?_⟩
    refine List.chain'_cons.mpr ⟨by decide, ?_⟩
    exact List.chain'_singleton _
  refine ⟨⟨hchain, by decide, by decide⟩, ?_⟩
  have := C3_empty_grid_diagonal_cost.1 5 [(0,0),(1,1),(2,2),(3,3),(4,4)]
    hchain (by decide) (by decide)
  linarith

/-! ### C4: endpoint pinning -/

theorem convert_waypoints_singleton (x s e : ℚ × ℚ) :
    convert_waypoints [x] s e = [e] := rfl

theorem floorQ_half : ⌊((1:ℚ)/2)⌋ = 0 := by
  rw [Int.floor_eq_iff]
  constructor <;> norm_num

/-- C4 failing input, evaluated.  With bounds N=1, S=0, E=1, W=0 and a 2×2
obstacle-free grid, the requested start (lat 1, lon 0) and end (lat 1,
lon 1/4) are distinct but fall into the same grid cell (0,0); the pathfinder
returns the 1-cell path, i.e. ONE waypoint, and `_convert_waypoints` first
overwrites it with `start_gps` and then overwrites the same element with
`end_gps`.  The returned route is the single waypoint `end_gps`: its first
waypoint does not equal the requested start, contradicting the claim (and
the source's own docstring "Forces first waypoint to be exact start_gps"). -/
theorem C4_single_waypoint_pinning_eval :
    (generate_tactical_routes emptyMask 2 2 (1, 0) (1, 1/4) ⟨1,0,1,0⟩ true).map
        (fun r => r.waypoints) = [[((1:ℚ), (1:ℚ)/4)]] ∧
    ((1:ℚ), (1:ℚ)/4) ≠ ((1:ℚ), (0:ℚ)) := by
  constructor
  · have hsg : gps_to_grid ⟨1,0,1,0⟩ 2 2 1 0 = ((0:ℤ), (0:ℤ)) := by
      unfold gps_to_grid
      norm_num [pyInt]
    have heg : gps_to_grid ⟨1,0,1,0⟩ 2 2 1 (1/4) = ((0:ℤ), (0:ℤ)) := by
      unfold gps_to_grid
      norm_num [pyInt, floorQ_half]
    have hfp : (find_path emptyMask 2 2 (0,0) (0,0) ⟨1,0,1,0⟩).waypoints =
        [grid_to_gps (((0:ℤ)):ℚ) (((0:ℤ)):ℚ) ⟨1,0,1,0⟩ 2 2] := by rfl
    unfold generate_tactical_routes
    simp only [hsg, heg, hfp, if_true]
    rw [convert_waypoints_singleton]
    rfl
  · intro hcon
    have := congrArg Prod.snd hcon
    norm_num at this

/-! ### C8: simplification -/

theorem pyInt_zero : pyInt 0 = 0 := by simp [pyInt]

theorem head?_append_left {α : Type} (l : List α) (x : α) (h : l ≠ []) :
    (l ++ [x]).head? = l.head? := by
  cases l with
  | nil => exact absurd rfl h
  | cons a t => rfl

theorem simplifyStep_fst_eq_or (acc : List Cell × Option (ℤ × ℤ)) (pr : Cell × Cell) :
    (simplifyStep acc pr).1 = acc.1 ∨ (simplifyStep acc pr).1 = acc.1 ++ [pr.1] := by
  rcases em (some (pr.2.1 - pr.1.1, pr.2.2 - pr.1.2) ≠ acc.2 ∧ pr.1 ∉ acc.1) with h | h
  · right
    simp [simplifyStep, h]
  · left
    simp [simplifyStep, h]

theorem foldl_simplifyStep_length (pairs : List (Cell × Cell))
    (acc : List Cell × Option (ℤ × ℤ)) :
    (pairs.foldl simplifyStep acc).1.length ≤ acc.1.length + pairs.length := by
  induction pairs generalizing acc with
  | nil => simp
  | cons pr rest ih =>
    rw [List.foldl_cons]
    calc (rest.foldl simplifyStep (simplifyStep acc pr)).1.length
        ≤ (simplifyStep acc pr).1.length + rest.length := ih _
      _ ≤ acc.1.length + (pr :: rest).length := by
          rcases simplifyStep_fst_eq_or acc pr with h | h <;> · rw [h]; simp; try omega

theorem foldl_simplifyStep_head (pairs : List (Cell × Cell))
    (acc : List Cell × Option (ℤ × ℤ)) (hne : acc.1 ≠ []) :
    (pairs.foldl simplifyStep acc).1.head? = acc.1.head? ∧
    (pairs.foldl simplifyStep acc).1 ≠ [] := by
  induction pairs generalizing acc with
  | nil => exact ⟨rfl, hne⟩
  | cons pr rest ih =>
    have hne' : (simplifyStep acc pr).1 ≠ [] := by
      rcases simplifyStep_fst_eq_or acc pr with h | h <;> rw [h] <;> simp [hne]
    have hrec := ih (simplifyStep acc pr) hne'
    refine ⟨?_, hrec.2⟩
    rw [List.foldl_cons, hrec.1]
    rcases simplifyStep_fst_eq_or acc pr with h | h
    · rw [h]
    · rw [h, head?_append_left _ _ hne]

theorem simplifyStep_first (p0 p1 : Cell) :
    simplifyStep ([p0], none) (p0, p1) = ([p0], some (p1.1 - p0.1, p1.2 - p0.2)) := by
  unfold simplifyStep
  simp

/-- C8: for every non-empty raw cell path, `_simplify_path` (with the
source's `max_waypoints = 15`) returns a list no longer than the input whose
first and last elements equal the input's first and last cells. -/
theorem C8_simplify_shrinks_keeps_endpoints (path : List Cell) (hne : path ≠ []) :
    (simplify_path path 15).length ≤ path.length ∧
    (simplify_path path 15).head? = path.head? ∧
    (simplify_path path 15).getLast? = path.getLast? := by
  unfold simplify_path
  by_cases h15 : path.length ≤ 15
  · rw [if_pos h15]
    exact ⟨le_refl _, rfl, rfl⟩
  · rw [if_neg h15, if_neg (by omega)]
    obtain ⟨p0, p1, t, rfl⟩ : ∃ p0 p1 t, path = p0 :: p1 :: t := by
      cases path with
      | nil => exact absurd rfl hne
      | cons a rest =>
        cases rest with
        | nil => simp at h15
        | cons b t => exact ⟨a, b, t, rfl⟩
    have hzip : (p0 :: p1 :: t).zip (p0 :: p1 :: t).tail =
        (p0, p1) :: ((p1 :: t).zip t) := rfl
    have hheadI : (p0 :: p1 :: t).headI = p0 := rfl
    have hlast : (p0 :: p1 :: t).getLastD (0, 0) = ((p0 :: p1 :: t).getLast (by simp)) := by
      rw [List.getLastD_eq_getLast?, List.getLast?_eq_getLast _ (by simp)]
      rfl
    set g := (p0 :: p1 :: t).getLast (by simp) with hg
    have hlast? : (p0 :: p1 :: t).getLast? = some g := List.getLast?_eq_getLast _ _
    simp only [hzip, hheadI, hlast, List.foldl_cons, simplifyStep_first]
    set A := ((p1 :: t).zip t).foldl simplifyStep ([p0], some (p1.1 - p0.1, p1.2 - p0.2))
      with hA
    have hAlen : A.1.length ≤ 1 + ((p1 :: t).zip t).length :=
      foldl_simplifyStep_length _ _
    have hziplen : ((p1 :: t).zip t).length = t.length := by
      rw [List.length_zip]
      simp [min_def]
    have hAhead := foldl_simplifyStep_head ((p1 :: t).zip t)
      ([p0], some (p1.1 - p0.1, p1.2 - p0.2)) (by simp)
    have hAlen' : A.1.length ≤ t.length + 1 := by omega
    obtain ⟨arest, hArest⟩ : ∃ arest, A.1 = p0 :: arest := by
      cases hA1 : A.1 with
      | nil => exact absurd hA1 hAhead.2
      | cons x xs =>
        have := hAhead.1
        rw [hA1] at this
        simp at this
        exact ⟨xs, by rw [this]⟩
    have hplen : 15 < t.length + 2 := by
      have := lt_of_not_le h15
      simpa using this
    by_cases hbig : 15 < (A.1 ++ [g]).length
    · rw [if_pos hbig]
      have hL : (A.1 ++ [g]).length = arest.length + 2 := by
        rw [hArest]
        simp
      refine ⟨?_, ?_, ?_⟩
      · have hplen2 : (p0 :: p1 :: t).length = t.length + 2 := by simp
        simp only [List.length_map, List.length_append, List.length_range,
          List.length_cons, List.length_singleton, List.length_nil, hplen2]
        omega
      · have hr14 : List.range 14 = 0 :: (List.range 13).map Nat.succ :=
          List.range_succ_eq_map 13
        rw [hr14]
        simp only [List.map_cons, List.map_append, List.cons_append, List.head?_cons]
        norm_num [pyInt]
        rw [hArest]
        rfl
      · rw [List.map_append]
        simp only [List.map_cons, List.map_nil]
        rw [List.getLast?_concat]
        have hidx : (((A.1 ++ [g]).length : ℤ) - 1).toNat = arest.length + 1 := by
          rw [hL]
          omega
        rw [hidx, hlast?]
        have : (A.1 ++ [g]).getD (arest.length + 1) (0, 0) = g := by
          rw [List.getD_eq_getElem?_getD, hArest]
          have hlenp : (p0 :: arest).length = arest.length + 1 := by simp
          rw [← hlenp, List.getElem?_concat_length]
          rfl
        rw [this]
    · rw [if_neg hbig]
      refine ⟨?_, ?_, ?_⟩
      · have : A.1.length + 1 ≤ t.length + 2 := by omega
        simpa using this
      · rw [head?_append_left _ _ hAhead.2, hAhead.1]
        rfl
      · rw [List.getLast?_concat, hlast?]

/-- C8 witness: a concrete 2-cell path. -/
theorem C8_simplify_witness :
    (([((0:ℤ),(0:ℤ)), (0,1)] : List Cell) ≠ []) ∧
    ((simplify_path [((0:ℤ),(0:ℤ)), (0,1)] 15).length ≤
        ([((0:ℤ),(0:ℤ)), (0,1)] : List Cell).length ∧
     (simplify_path [((0:ℤ),(0:ℤ)), (0,1)] 15).head? =
        ([((0:ℤ),(0:ℤ)), (0,1)] : List Cell).head? ∧
     (simplify_path [((0:ℤ),(0:ℤ)), (0,1)] 15).getLast? =
        ([((0:ℤ),(0:ℤ)), (0,1)] : List Cell).getLast?) :=
  ⟨by decide, C8_simplify_shrinks_keeps_endpoints [((0:ℤ),(0:ℤ)), (0,1)] (by decide)⟩

/-! ### C6: obstacle/traversable combination (GeminiObstacleDetector) -/

/-- Row-major enumeration of all cells of the `grid_size × grid_size` grid
(the fallback `all_cells` set of `_combine_detection_results`). -/
def allCellsList (gs : ℕ) : List (ℤ × ℤ) :=
  (List.range gs).flatMap (fun r => (List.range gs).map (fun c => ((r:ℤ), (c:ℤ))))

/-- `GeminiObstacleDetector._combine_detection_results`, returning the
(unbuffered) `obstacle_mask` as a cell predicate (`true` = obstacle)
together with the final confirmed-traversable set.  Python sets are
modelled as lists used only through membership.  The separately returned
`buffered_mask`, the statistics printing and the stored detection details
affect no claim and are omitted. -/
def combine_detection (gs : ℕ) (buildings traversable : List (ℤ × ℤ)) :
    (ℤ → ℤ → Bool) × List (ℤ × ℤ) :=
  let building_cells := buildings.filter (fun c => decide (inBounds gs gs c))
  let traversable_cells := traversable.filter (fun c => decide (inBounds gs gs c))
  let confirmed₀ := traversable_cells.filter (fun c => c ∉ building_cells)
  let confirmed₁ :=
    if confirmed₀ = [] ∧ traversable_cells ≠ [] then traversable_cells else confirmed₀
  let confirmed₂ :=
    if confirmed₁ = [] then (allCellsList gs).filter (fun c => c ∉ building_cells)
    else confirmed₁
  (fun r c => decide ((r, c) ∉ confirmed₂), confirmed₂)

/-- C6 counterexample: grid 2×2, buildings = {(0,0)}, traversable = {(0,0)}.
The claimed rule ("a cell is obstacle unless it is in the traversable set
and not also in the obstacle set") yields zero traversable cells, so by the
claim the builder should fall back to treating all non-obstacle cells —
(0,1), (1,0), (1,1) — as traversable, keeping (0,0) an obstacle.  The code
instead falls back first to the raw traversable set: (0,0), a confirmed
building cell, becomes the only clear cell and every other cell stays an
obstacle. -/
theorem C6_counterexample :
    (combine_detection 2 [(0,0)] [(0,0)]).1 0 0 = false ∧
    (combine_detection 2 [(0,0)] [(0,0)]).1 0 1 = true := by
  constructor <;> rfl

/-- C6 (amended): a cell of the resulting mask is traversable iff it is in
the (in-bounds filtered) traversable set and not in the obstacle set —
*provided that rule yields at least one traversable cell*.  When the rule
yields zero traversable cells the code has a two-stage fallback: if the
traversable set itself is non-empty it is used as-is (ignoring the obstacle
filter); only when the traversable set is empty are all non-obstacle cells
treated as traversable (never an all-obstacle mask as long as some cell is
not a reported obstacle). -/
theorem C6_combination_rule (gs : ℕ) (buildings traversable : List (ℤ × ℤ)) :
    (((traversable.filter (fun c => decide (inBounds gs gs c))).filter
        (fun c => c ∉ buildings.filter (fun c => decide (inBounds gs gs c))) ≠ []) →
      ∀ r c : ℤ, (combine_detection gs buildings traversable).1 r c = false ↔
        ((r,c) ∈ traversable.filter (fun c => decide (inBounds gs gs c)) ∧
         (r,c) ∉ buildings.filter (fun c => decide (inBounds gs gs c)))) ∧
    (((traversable.filter (fun c => decide (inBounds gs gs c))).filter
        (fun c => c ∉ buildings.filter (fun c => decide (inBounds gs gs c))) = []) →
      traversable.filter (fun c => decide (inBounds gs gs c)) ≠ [] →
      ∀ r c : ℤ, (combine_detection gs buildings traversable).1 r c = false ↔
        (r,c) ∈ traversable.filter (fun c => decide (inBounds gs gs c))) ∧
    ((traversable.filter (fun c => decide (inBounds gs gs c)) = []) →
      ∀ r c : ℤ, (combine_detection gs buildings traversable).1 r c = false ↔
        ((r,c) ∈ allCellsList gs ∧
         (r,c) ∉ buildings.filter (fun c => decide (inBounds gs gs c)))) := by
  refine ⟨?_, ?_, ?_⟩
  · intro hne r c
    have hcond1 : ¬((traversable.filter (fun c => decide (inBounds gs gs c))).filter
        (fun c => c ∉ buildings.filter (fun c => decide (inBounds gs gs c))) = [] ∧
        ¬ traversable.filter (fun c => decide (inBounds gs gs c)) = []) :=
      fun hc => hne hc.1
    unfold combine_detection
    dsimp only
    rw [if_neg hcond1, if_neg hne]
    simp [List.mem_filter]
    tauto
  · intro hemp hTne r c
    have hc1 : (traversable.filter (fun c => decide (inBounds gs gs c))).filter
        (fun c => c ∉ buildings.filter (fun c => decide (inBounds gs gs c))) = [] ∧
        ¬ traversable.filter (fun c => decide (inBounds gs gs c)) = [] := ⟨hemp, hTne⟩
    unfold combine_detection
    dsimp only
    rw [if_pos hc1, if_neg hTne]
    simp [List.mem_filter]
  · intro hT r c
    have hcond1 : ¬((traversable.filter (fun c => decide (inBounds gs gs c))).filter
        (fun c => c ∉ buildings.filter (fun c => decide (inBounds gs gs c))) = [] ∧
        ¬ traversable.filter (fun c => decide (inBounds gs gs c)) = []) :=
      fun hc => hc.2 hT
    have h0 : (traversable.filter (fun c => decide (inBounds gs gs c))).filter
        (fun c => c ∉ buildings.filter (fun c => decide (inBounds gs gs c))) = [] := by
      rw [hT]
      rfl
    unfold combine_detection
    dsimp only
    rw [if_neg hcond1, if_pos h0]
    simp [List.mem_filter]

/-- C6 witness: grid 2×2, buildings = {(0,0)}, traversable = {(0,1)} — the
plain rule applies and cell (0,1) is traversable. -/
theorem C6_combination_witness :
    (([((0:ℤ),(1:ℤ))] : List (ℤ × ℤ)).filter (fun c => decide (inBounds 2 2 c))).filter
        (fun c => c ∉ ([((0:ℤ),(0:ℤ))] : List (ℤ × ℤ)).filter (fun c => decide (inBounds 2 2 c))) ≠ [] ∧
    ((combine_detection 2 [(0,0)] [(0,1)]).1 0 1 = false ↔
      ((0,1) ∈ ([((0:ℤ),(1:ℤ))] : List (ℤ × ℤ)).filter (fun c => decide (inBounds 2 2 c)) ∧
       ((0:ℤ),(1:ℤ)) ∉ ([((0:ℤ),(0:ℤ))] : List (ℤ × ℤ)).filter (fun c => decide (inBounds 2 2 c)))) :=
  ⟨by decide, (C6_combination_rule 2 [(0,0)] [(0,1)]).1 (by decide) 0 1⟩

/-! ### C7: cost surface (TerrainDataClient) -/

/-- NaN-propagating subtraction on elevations (`none` = NaN). -/
def optSub (a b : Option ℚ) : Option ℚ :=
  match a, b with
  | some x, some y => some (x - y)
  | _, _ => none

/-- NaN-propagating division by a (nonzero) spacing. -/
def optDiv (a : Option ℚ) (s : ℚ) : Option ℚ := a.map (fun x => x / s)

/-- `np.gradient` along the row axis with spacing `cell_size`: central
differences in the interior, one-sided differences at the edges
(`np.gradient` requires at least 2 samples per axis). -/
def gradRow (dem : ℕ → ℕ → Option ℚ) (dh : ℕ) (s : ℚ) (i j : ℕ) : Option ℚ :=
  if i = 0 then optDiv (optSub (dem 1 j) (dem 0 j)) s
  else if i = dh - 1 then optDiv (optSub (dem (dh-1) j) (dem (dh-2) j)) s
  else optDiv (optSub (dem (i+1) j) (dem (i-1) j)) (2*s)

/-- `np.gradient` along the column axis with spacing `cell_size`. -/
def gradCol (dem : ℕ → ℕ → Option ℚ) (dw : ℕ) (s : ℚ) (i j : ℕ) : Option ℚ :=
  if j = 0 then optDiv (optSub (dem i 1) (dem i 0)) s
  else if j = dw - 1 then optDiv (optSub (dem i (dw-1)) (dem i (dw-2))) s
  else optDiv (optSub (dem i (j+1)) (dem i (j-1))) (2*s)

/-- `TerrainDataClient.calculate_slope`: gradient magnitude
`sqrt(gx² + gy²)`, with NaN mapped to 0 afterwards by `np.nan_to_num`
(a NaN in either gradient makes the magnitude NaN, hence 0). -/
noncomputable def calculate_slope (dem : ℕ → ℕ → Option ℚ) (dh dw : ℕ)
    (cell_size : ℚ) (i j : ℕ) : ℝ :=
  match gradCol dem dw cell_size i j, gradRow dem dh cell_size i j with
  | some gx, some gy => Real.sqrt ((gx:ℝ)^2 + (gy:ℝ)^2)
  | _, _ => 0

/-- `TerrainDataClient.tobler_hiking_speed` (km/h), clipped to [0.5, 6]. -/
noncomputable def tobler_hiking_speed (slope : ℝ) : ℝ :=
  min 6 (max 0.5 (6 * Real.exp (-3.5 * |slope + 0.05|)))

/-- `TerrainDataClient.tobler_cost` (seconds per meter). -/
noncomputable def tobler_cost (slope : ℝ) (off_road_factor : ℝ) : ℝ :=
  1 / max (tobler_hiking_speed slope * off_road_factor / 3.6) 0.1

/-- `skimage.measure.block_reduce` with `func = np.max` at one output cell:
the maximum over a `bh × bw` block, positions beyond the array edge padded
with `cval = 0`. -/
def blockMax (f : ℕ → ℕ → ℚ) (H W bh bw : ℕ) (i j : ℕ) : ℚ :=
  ((List.range bh).flatMap (fun bi => (List.range bw).map (fun bj =>
      if i * bh + bi < H ∧ j * bw + bj < W then f (i * bh + bi) (j * bw + bj) else 0))).foldl
    max (if i * bh < H ∧ j * bw < W then f (i * bh) (j * bw) else 0)

open scoped Classical in
/-- `TerrainDataClient.create_cost_surface`.  The land-cover cost table
(`LANDCOVER_COSTS` is loaded from `config.yaml`, which is not part of the
source tree) is a parameter `costs : ℕ → Option ℚ` with `none` playing
`np.inf`; cost-surface values live in `ℝ≥0∞` with `⊤` playing `np.inf`.
The two final masking assignments of the source
(`final_cost[slope > 1.0] = np.inf` then `final_cost[np.isnan(dem)] = np.inf`)
become the two outer conditionals (the later assignment wins). -/
noncomputable def create_cost_surface (dem : ℕ → ℕ → Option ℚ) (dh dw : ℕ)
    (lc : ℕ → ℕ → ℕ) (lh lw : ℕ) (costs : ℕ → Option ℚ)
    (cell_size : ℚ) (off_road_factor : ℝ) (i j : ℕ) : ENNReal :=
  let slope := calculate_slope dem dh dw cell_size i j
  let slope_cost := tobler_cost slope off_road_factor
  let impassable_fullres : ℕ → ℕ → Bool := fun a b => decide (costs (lc a b) = none)
  let terrain_cost_fullres : ℕ → ℕ → ℚ := fun a b => (costs (lc a b)).getD 1
  let terrain_mult : ENNReal :=
    if lh = dh ∧ lw = dw then
      (if impassable_fullres i j then ⊤
       else ENNReal.ofReal ((terrain_cost_fullres i j : ℝ)))
    else
      let bh := max 1 (lh / dh)
      let bw := max 1 (lw / dw)
      let outH := (lh + bh - 1) / bh
      let outW := (lw + bw - 1) / bw
      let i' := min i (outH - 1)
      let j' := min j (outW - 1)
      let imp := blockMax (fun a b => if impassable_fullres a b then 1 else 0) lh lw bh bw i' j'
      let tc := blockMax terrain_cost_fullres lh lw bh bw i' j'
      if 1/2 < imp then ⊤ else ENNReal.ofReal ((tc : ℝ))
  if dem i j = none then ⊤
  else if 1 < slope then ⊤
  else ENNReal.ofReal slope_cost * terrain_mult

/-- C7: for every elevation raster (at least 2×2, as `np.gradient`
requires), land-cover raster and cost table, every cell whose slope
gradient (rise/run) exceeds 1.0 (≈45°) or whose elevation is NaN gets the
impassable (infinite) cost. -/
theorem C7_steep_or_nan_impassable (dem : ℕ → ℕ → Option ℚ) (dh dw : ℕ)
    (lc : ℕ → ℕ → ℕ) (lh lw : ℕ) (costs : ℕ → Option ℚ) (cell_size : ℚ)
    (off_road_factor : ℝ) (i j : ℕ) (_hdh : 2 ≤ dh) (_hdw : 2 ≤ dw)
    (hcase : 1 < calculate_slope dem dh dw cell_size i j ∨ dem i j = none) :
    create_cost_surface dem dh dw lc lh lw costs cell_size off_road_factor i j = ⊤ := by
  unfold create_cost_surface
  dsimp only
  rcases em (dem i j = none) with hn | hn
  · rw [if_pos hn]
  · rcases hcase with hs | hs
    · rw [if_neg hn, if_pos hs]
    · exact absurd hs hn

/-- Concrete inputs for the C7 witness: an all-NaN 2×2 elevation raster. -/
def demNaN : ℕ → ℕ → Option ℚ := fun _ _ => none

/-- Constant land-cover class 0. -/
def lcZero : ℕ → ℕ → ℕ := fun _ _ => 0

/-- Cost table mapping every class to multiplier 1. -/
def costsOne : ℕ → Option ℚ := fun _ => some 1

/-- C7 witness: the NaN-elevation case on a 2×2 raster. -/
theorem C7_witness :
    ((2:ℕ) ≤ 2 ∧
     (1 < calculate_slope demNaN 2 2 30 0 0 ∨ demNaN 0 0 = none)) ∧
    create_cost_surface demNaN 2 2 lcZero 2 2 costsOne 30 0.6 0 0 = ⊤ :=
  ⟨⟨le_refl 2, Or.inr rfl⟩,
   C7_steep_or_nan_impassable demNaN 2 2 lcZero 2 2 costsOne 30 0.6 0 0
     (le_refl 2) (le_refl 2) (Or.inr rfl)⟩

/-! ### C1: clear paths.  Part 1: the A* loop only ever touches clear cells
(given a clear start). -/

/-- Invariant: every queued position and every `came_from` key/value is a
non-obstacle cell. -/
def ClearInv (mask : Cell → Bool) (st : AState) : Prop :=
  (∀ en ∈ st.openList, mask en.2.2 = false) ∧
  (∀ c p : Cell, st.cameFrom c = some p → mask p = false ∧ mask c = false)

theorem relaxDir_clearInv (mask : Cell → Bool) (h w : ℕ) (goal cur : Cell)
    (gcur : ℕ) (st : AState) (dir : (ℤ × ℤ) × ℕ)
    (hcur : mask cur = false) (hinv : ClearInv mask st) :
    ClearInv mask (relaxDir mask h w goal cur gcur st dir) := by
  unfold relaxDir
  dsimp only
  split_ifs with h1 h2 h3 h4
  · exact hinv
  · exact hinv
  · -- push branch
    constructor
    · intro en hen
      rcases List.mem_append.mp hen with hen | hen
      · exact hinv.1 en hen
      · simp at hen
        rw [hen]
        simpa using h2
    · intro c p hcp
      dsimp only at hcp
      by_cases hc : c = (cur.1 + dir.1.1, cur.2 + dir.1.2)
      · rw [if_pos hc] at hcp
        simp at hcp
        rw [← hcp, hc]
        exact ⟨hcur, by simpa using h2⟩
      · rw [if_neg hc] at hcp
        exact hinv.2 c p hcp
  · exact hinv
  · exact hinv

theorem foldl_relaxDir_clearInv (mask : Cell → Bool) (h w : ℕ) (goal cur : Cell)
    (gcur : ℕ) (dirs : List ((ℤ × ℤ) × ℕ)) (st : AState)
    (hcur : mask cur = false) (hinv : ClearInv mask st) :
    ClearInv mask (dirs.foldl (relaxDir mask h w goal cur gcur) st) := by
  induction dirs generalizing st with
  | nil => exact hinv
  | cons d rest ih =>
    exact ih _ (relaxDir_clearInv mask h w goal cur gcur st d hcur hinv)

theorem reconstruct_clear (mask : Cell → Bool) (came : Cell → Option Cell)
    (hcame : ∀ c p, came c = some p → mask p = false ∧ mask c = false) :
    ∀ (fuel : ℕ) (c : Cell), mask c = false → ∀ x ∈ reconstruct came fuel c, mask x = false := by
  intro fuel
  induction fuel with
  | zero =>
    intro c hc x hx
    simp [reconstruct] at hx
    rw [hx]
    exact hc
  | succ n ih =>
    intro c hc x hx
    unfold reconstruct at hx
    cases hcm : came c with
    | none =>
      rw [hcm] at hx
      simp at hx
      rw [hx]
      exact hc
    | some p =>
      rw [hcm] at hx
      rcases List.mem_append.mp hx with hx | hx
      · exact ih p (hcame c p hcm).1 x hx
      · simp at hx
        rw [hx]
        exact hc

theorem selectMin_mem (l : List Entry) (m : Entry) (l' : List Entry)
    (h : selectMin l = some (m, l')) : m ∈ l ∧ ∀ x ∈ l', x ∈ l := by
  obtain ⟨l₁, l₂, hdec, hrest, -⟩ := selectMin_validSel.2 l m l' h
  constructor
  · rw [hdec]
    simp
  · intro x hx
    rw [hrest] at hx
    rw [hdec]
    rcases List.mem_append.mp hx with hx | hx <;> simp [hx]

theorem astarLoop_clear (mask : Cell → Bool) (h w : ℕ) (goal : Cell) :
    ∀ (fuel : ℕ) (st : AState), ClearInv mask st →
    ∀ p, astarLoop selectMin mask h w goal fuel st = some p →
    ∀ x ∈ p, mask x = false := by
  intro fuel
  induction fuel with
  | zero =>
    intro st hinv p hp
    simp [astarLoop] at hp
  | succ n ih =>
    intro st hinv p hp
    unfold astarLoop at hp
    cases hsel : selectMin st.openList with
    | none =>
      rw [hsel] at hp
      simp at hp
    | some pr =>
      obtain ⟨en, rest⟩ := pr
      rw [hsel] at hp
      dsimp only at hp
      have hmem := selectMin_mem _ _ _ hsel
      have hcur : mask en.2.2 = false := hinv.1 en hmem.1
      by_cases hcl : st.closedSet en.2.2
      · rw [if_pos hcl] at hp
        refine ih { st with openList := rest } ⟨?_, hinv.2⟩ p hp
        intro x hx
        exact hinv.1 x (hmem.2 x hx)
      · rw [if_neg hcl] at hp
        by_cases hgoal : en.2.2 = goal
        · rw [if_pos hgoal] at hp
          simp only [Option.some.injEq] at hp
          rw [← hp]
          exact reconstruct_clear mask st.cameFrom hinv.2 (h * w + 1) en.2.2 hcur
        · rw [if_neg hgoal] at hp
          refine ih _ ?_ p hp
          refine foldl_relaxDir_clearInv mask h w goal en.2.2 _ directions _ hcur ⟨?_, hinv.2⟩
          intro x hx
          exact hinv.1 x (hmem.2 x hx)

theorem astar_clear (mask : Cell → Bool) (h w : ℕ) (s goal : Cell)
    (hs : mask s = false) :
    ∀ p, astar mask h w s goal = some p → ∀ x ∈ p, mask x = false := by
  intro p hp
  refine astarLoop_clear mask h w goal (8 * h * w + 2) (initState s goal) ⟨?_, ?_⟩ p hp
  · intro en hen
    simp [initState] at hen
    rw [hen]
    exact hs
  · intro c q hcq
    simp [initState] at hcq

/-! ### C1, Part 2: the BFS of `_find_nearest_clear` finds a clear cell
whenever one exists (completeness via grid connectivity). -/

/-- 4-adjacency: Manhattan distance one. -/
def Adj4 (a b : Cell) : Prop := (b.1 - a.1).natAbs + (b.2 - a.2).natAbs = 1

/-- Reachability inside the grid by in-bounds 4-adjacent steps. -/
inductive Reach4 (h w : ℕ) : Cell → Cell → Prop
  | refl (c : Cell) : Reach4 h w c c
  | step {a b c : Cell} : Reach4 h w a b → inBounds h w c → Adj4 b c → Reach4 h w a c

/-- The grid is 4-connected: every in-bounds cell is reachable from every
in-bounds cell. -/
theorem reach4_all (h w : ℕ) (s : Cell) (hs : inBounds h w s) :
    ∀ (d : ℕ) (z : Cell), inBounds h w z →
      (z.1 - s.1).natAbs + (z.2 - s.2).natAbs = d → Reach4 h w s z := by
  intro d
  induction d using Nat.strong_induction_on with
  | _ d ih =>
    intro z hz hd
    rcases Nat.eq_zero_or_pos d with h0 | hpos
    · have hz1 : z.1 = s.1 := by omega
      have hz2 : z.2 = s.2 := by omega
      have hzs : z = s := Prod.ext hz1 hz2
      rw [hzs]
      exact Reach4.refl s
    · unfold inBounds at hs hz
      by_cases hr : z.1 = s.1
      · have hc2 : z.2 ≠ s.2 := by omega
        refine Reach4.step (b := (z.1, if s.2 < z.2 then z.2 - 1 else z.2 + 1))
          (ih (d-1) (by omega) _ ?_ ?_) (by unfold inBounds; exact hz) ?_
        · unfold inBounds
          dsimp only
          split_ifs <;> omega
        · dsimp only
          split_ifs <;> omega
        · unfold Adj4
          dsimp only
          split_ifs <;> omega
      · refine Reach4.step (b := (if s.1 < z.1 then z.1 - 1 else z.1 + 1, z.2))
          (ih (d-1) (by omega) _ ?_ ?_) (by unfold inBounds; exact hz) ?_
        · unfold inBounds
          dsimp only
          split_ifs <;> omega
        · dsimp only
          split_ifs <;> omega
        · unfold Adj4
          dsimp only
          split_ifs <;> omega

/-- The finite set of in-bounds cells. -/
def gridCells (h w : ℕ) : Finset Cell :=
  (Finset.Ico (0:ℤ) (h:ℤ)) ×ˢ (Finset.Ico (0:ℤ) (w:ℤ))

theorem mem_gridCells {h w : ℕ} {c : Cell} : c ∈ gridCells h w ↔ inBounds h w c := by
  unfold gridCells inBounds
  rw [Finset.mem_product, Finset.mem_Ico, Finset.mem_Ico]
  tauto

/-- Number of in-bounds cells not yet visited (the BFS termination measure
counts these twice, plus the queue length). -/
def unvisCount (h w : ℕ) (vis : Cell → Bool) : ℕ :=
  ((gridCells h w).filter (fun c => vis c = false)).card

theorem unvisCount_le (h w : ℕ) (vis : Cell → Bool) : unvisCount h w vis ≤ h * w := by
  calc unvisCount h w vis ≤ (gridCells h w).card := Finset.card_filter_le _ _
    _ = h * w := by
        unfold gridCells
        rw [Finset.card_product, Int.card_Ico, Int.card_Ico]
        simp

theorem unvisCount_update (h w : ℕ) (vis : Cell → Bool) (n : Cell)
    (hn : inBounds h w n) (hv : vis n = false) :
    unvisCount h w (fun x => if x = n then true else vis x) + 1 = unvisCount h w vis := by
  unfold unvisCount
  have hmem : n ∈ (gridCells h w).filter (fun c => vis c = false) :=
    Finset.mem_filter.mpr ⟨mem_gridCells.mpr hn, by simp [hv]⟩
  have hset : (gridCells h w).filter (fun c => (if c = n then true else vis c) = false) =
      ((gridCells h w).filter (fun c => vis c = false)).erase n := by
    ext c
    simp only [Finset.mem_filter, Finset.mem_erase]
    by_cases hc : c = n
    · simp [hc, hv]
    · simp [hc]
  rw [hset, Finset.card_erase_of_mem hmem]
  have hpos : 0 < ((gridCells h w).filter (fun c => vis c = false)).card :=
    Finset.card_pos.mpr ⟨n, hmem⟩
  omega

theorem adj4_cases (c n : Cell) (hadj : Adj4 c n) :
    (n.1 = c.1 - 1 ∧ n.2 = c.2) ∨ (n.1 = c.1 + 1 ∧ n.2 = c.2) ∨
    (n.1 = c.1 ∧ n.2 = c.2 - 1) ∨ (n.1 = c.1 ∧ n.2 = c.2 + 1) := by
  unfold Adj4 at hadj
  omega

theorem enqStep_vis_mono (h w : ℕ) (c : Cell) (acc : List Cell × (Cell → Bool))
    (d : ℤ × ℤ) (x : Cell) (hx : acc.2 x = true) : (enqStep h w c acc d).2 x = true := by
  unfold enqStep
  dsimp only
  split_ifs with h1
  · by_cases hxn : x = (c.1 + d.1, c.2 + d.2) <;> simp [hxn, hx]
  · exact hx

theorem enqStep_queue_mono (h w : ℕ) (c : Cell) (acc : List Cell × (Cell → Bool))
    (d : ℤ × ℤ) (x : Cell) (hx : x ∈ acc.1) : x ∈ (enqStep h w c acc d).1 := by
  unfold enqStep
  dsimp only
  split_ifs with h1
  · exact List.mem_append.mpr (Or.inl hx)
  · exact hx

theorem enqStep_queue_new (h w : ℕ) (c : Cell) (acc : List Cell × (Cell → Bool))
    (d : ℤ × ℤ) (x : Cell) (hx : x ∈ (enqStep h w c acc d).1) :
    x ∈ acc.1 ∨ (inBounds h w x ∧ (enqStep h w c acc d).2 x = true) := by
  unfold enqStep at hx ⊢
  dsimp only at hx ⊢
  split_ifs at hx ⊢ with h1
  · rcases List.mem_append.mp hx with hx | hx
    · exact Or.inl hx
    · simp at hx
      refine Or.inr ⟨?_, ?_⟩
      · rw [hx]
        exact h1.1
      · simp [hx]
  · exact Or.inl hx

theorem enqStep_vis_new (h w : ℕ) (c : Cell) (acc : List Cell × (Cell → Bool))
    (d : ℤ × ℤ) (x : Cell) (hx : (enqStep h w c acc d).2 x = true) :
    acc.2 x = true ∨ (inBounds h w x ∧ x ∈ (enqStep h w c acc d).1) := by
  unfold enqStep at hx ⊢
  dsimp only at hx ⊢
  split_ifs at hx ⊢ with h1
  · dsimp only at hx
    by_cases hxn : x = (c.1 + d.1, c.2 + d.2)
    · refine Or.inr ⟨?_, ?_⟩
      · rw [hxn]
        exact h1.1
      · rw [hxn]
        exact List.mem_append.mpr (Or.inr (by simp))
    · rw [if_neg hxn] at hx
      exact Or.inl hx
  · exact Or.inl hx

theorem enqStep_measure (h w : ℕ) (c : Cell) (acc : List Cell × (Cell → Bool))
    (d : ℤ × ℤ) :
    2 * unvisCount h w (enqStep h w c acc d).2 + (enqStep h w c acc d).1.length ≤
    2 * unvisCount h w acc.2 + acc.1.length := by
  unfold enqStep
  dsimp only
  split_ifs with h1
  · have := unvisCount_update h w acc.2 (c.1 + d.1, c.2 + d.2) h1.1 h1.2
    simp only [List.length_append, List.length_singleton]
    omega
  · exact le_refl _

theorem foldl_enqStep_vis_mono (h w : ℕ) (c : Cell) (dirs : List (ℤ × ℤ))
    (acc : List Cell × (Cell → Bool)) (x : Cell) (hx : acc.2 x = true) :
    (dirs.foldl (enqStep h w c) acc).2 x = true := by
  induction dirs generalizing acc with
  | nil => exact hx
  | cons d rest ih => exact ih _ (enqStep_vis_mono h w c acc d x hx)

theorem foldl_enqStep_queue_mono (h w : ℕ) (c : Cell) (dirs : List (ℤ × ℤ))
    (acc : List Cell × (Cell → Bool)) (x : Cell) (hx : x ∈ acc.1) :
    x ∈ (dirs.foldl (enqStep h w c) acc).1 := by
  induction dirs generalizing acc with
  | nil => exact hx
  | cons d rest ih => exact ih _ (enqStep_queue_mono h w c acc d x hx)

theorem foldl_enqStep_queue_new (h w : ℕ) (c : Cell) (dirs : List (ℤ × ℤ))
    (acc : List Cell × (Cell → Bool)) (x : Cell)
    (hx : x ∈ (dirs.foldl (enqStep h w c) acc).1) :
    x ∈ acc.1 ∨ (inBounds h w x ∧ (dirs.foldl (enqStep h w c) acc).2 x = true) := by
  induction dirs generalizing acc with
  | nil => exact Or.inl hx
  | cons d rest ih =>
    rcases ih (enqStep h w c acc d) hx with hx' | hx'
    · rcases enqStep_queue_new h w c acc d x hx' with hx'' | hx''
      · exact Or.inl hx''
      · exact Or.inr ⟨hx''.1, foldl_enqStep_vis_mono h w c rest _ x hx''.2⟩
    · exact Or.inr hx'

theorem foldl_enqStep_vis_new (h w : ℕ) (c : Cell) (dirs : List (ℤ × ℤ))
    (acc : List Cell × (Cell → Bool)) (x : Cell)
    (hx : (dirs.foldl (enqStep h w c) acc).2 x = true) :
    acc.2 x = true ∨ (inBounds h w x ∧ x ∈ (dirs.foldl (enqStep h w c) acc).1) := by
  induction dirs generalizing acc with
  | nil => exact Or.inl hx
  | cons d rest ih =>
    rcases ih (enqStep h w c acc d) hx with hx' | hx'
    · rcases enqStep_vis_new h w c acc d x hx' with hx'' | hx''
      · exact Or.inl hx''
      · exact Or.inr ⟨hx''.1, foldl_enqStep_queue_mono h w c rest _ x hx''.2⟩
    · exact Or.inr hx'

theorem foldl_enqStep_measure (h w : ℕ) (c : Cell) (dirs : List (ℤ × ℤ))
    (acc : List Cell × (Cell → Bool)) :
    2 * unvisCount h w (dirs.foldl (enqStep h w c) acc).2 +
      (dirs.foldl (enqStep h w c) acc).1.length ≤
    2 * unvisCount h w acc.2 + acc.1.length := by
  induction dirs generalizing acc with
  | nil => exact le_refl _
  | cons d rest ih =>
    calc 2 * unvisCount h w ((d :: rest).foldl (enqStep h w c) acc).2 +
          ((d :: rest).foldl (enqStep h w c) acc).1.length
        ≤ 2 * unvisCount h w (enqStep h w c acc d).2 + (enqStep h w c acc d).1.length :=
          ih _
      _ ≤ 2 * unvisCount h w acc.2 + acc.1.length := enqStep_measure h w c acc d

theorem foldl_enqStep_nbrs (h w : ℕ) (c : Cell) (dirs : List (ℤ × ℤ))
    (acc : List Cell × (Cell → Bool)) :
    ∀ d ∈ dirs, inBounds h w (c.1 + d.1, c.2 + d.2) →
      (dirs.foldl (enqStep h w c) acc).2 (c.1 + d.1, c.2 + d.2) = true := by
  induction dirs generalizing acc with
  | nil => simp
  | cons d0 rest ih =>
    intro d hd hb
    rcases List.mem_cons.mp hd with hd | hd
    · subst hd
      rw [List.foldl_cons]
      apply foldl_enqStep_vis_mono
      unfold enqStep
      dsimp only
      split_ifs with h1
      · simp
      · rcases not_and_or.mp h1 with hcon | hcon
        · exact absurd hb hcon
        · simpa using hcon
    · exact ih _ d hd hb

/-- Loop invariant of the nearest-clear BFS: queued cells are in-bounds and
visited; visited cells are in-bounds; every visited cell is either still
queued or fully processed (it is an obstacle and all its in-bounds
4-neighbors are visited). -/
def BfsInv (mask : Cell → Bool) (h w : ℕ) (queue : List Cell) (vis : Cell → Bool) : Prop :=
  (∀ c ∈ queue, inBounds h w c ∧ vis c = true) ∧
  (∀ c : Cell, vis c = true → inBounds h w c) ∧
  (∀ c : Cell, vis c = true → c ∈ queue ∨
    (mask c = true ∧ ∀ n : Cell, inBounds h w n → Adj4 c n → vis n = true))

theorem bfsLoop_some_clear (mask : Cell → Bool) (h w : ℕ) :
    ∀ (fuel : ℕ) (queue : List Cell) (vis : Cell → Bool) (c : Cell),
      bfsLoop mask h w fuel queue vis = some c → mask c = false := by
  intro fuel
  induction fuel with
  | zero =>
    intro q v c hc
    simp [bfsLoop] at hc
  | succ n ih =>
    intro q v c hc
    cases q with
    | nil => simp [bfsLoop] at hc
    | cons q0 rest =>
      unfold bfsLoop at hc
      by_cases hm : mask q0 = false
      · rw [if_pos hm] at hc
        simp at hc
        rw [← hc]
        exact hm
      · rw [if_neg hm] at hc
        dsimp only at hc
        exact ih _ _ c hc

/-- If the visited set is closed (all visited cells processed), everything
reachable from a visited cell is a visited obstacle. -/
theorem bfs_closed_reach (mask : Cell → Bool) (h w : ℕ) (vis : Cell → Bool)
    (hclosed : ∀ c : Cell, vis c = true →
      mask c = true ∧ ∀ n : Cell, inBounds h w n → Adj4 c n → vis n = true) :
    ∀ z, vis z = true → ∀ y, Reach4 h w z y → vis y = true ∧ mask y = true := by
  intro z hz y hy
  induction hy with
  | refl => exact ⟨hz, (hclosed _ hz).1⟩
  | step hab hc hadj ih =>
    obtain ⟨hvb, _⟩ := ih
    have hvc := (hclosed _ hvb).2 _ hc hadj
    exact ⟨hvc, (hclosed _ hvc).1⟩

theorem bfsLoop_none_complete (mask : Cell → Bool) (h w : ℕ) :
    ∀ (fuel : ℕ) (queue : List Cell) (vis : Cell → Bool),
      BfsInv mask h w queue vis →
      2 * unvisCount h w vis + queue.length ≤ fuel →
      bfsLoop mask h w fuel queue vis = none →
      ∀ z, vis z = true → ∀ y, Reach4 h w z y → mask y = true := by
  intro fuel
  induction fuel with
  | zero =>
    intro queue vis hinv hmeasure _ z hz y hy
    have hq : queue = [] := List.length_eq_zero.mp (by omega)
    subst hq
    refine (bfs_closed_reach mask h w vis ?_ z hz y hy).2
    intro c hc
    rcases hinv.2.2 c hc with hcon | hcl
    · simp at hcon
    · exact hcl
  | succ n ih =>
    intro queue vis hinv hmeasure hnone z hz y hy
    cases queue with
    | nil =>
      refine (bfs_closed_reach mask h w vis ?_ z hz y hy).2
      intro c hc
      rcases hinv.2.2 c hc with hcon | hcl
      · simp at hcon
      · exact hcl
    | cons q0 rest =>
      unfold bfsLoop at hnone
      by_cases hm : mask q0 = false
      · rw [if_pos hm] at hnone
        simp at hnone
      · rw [if_neg hm] at hnone
        dsimp only at hnone
        have hm' : mask q0 = true := by
          cases hmq : mask q0 with
          | false => exact absurd hmq hm
          | true => rfl
        have hq0 := hinv.1 q0 (by simp)
        -- properties of the post-enqueue state
        have hinv' : BfsInv mask h w (bfsEnqueue h w q0 (rest, vis)).1
            (bfsEnqueue h w q0 (rest, vis)).2 := by
          unfold bfsEnqueue
          refine ⟨?_, ?_, ?_⟩
          · intro c hc
            rcases foldl_enqStep_queue_new h w q0 _ (rest, vis) c hc with hc' | hc'
            · have hold := hinv.1 c (by simp [hc'])
              exact ⟨hold.1, foldl_enqStep_vis_mono h w q0 _ (rest, vis) c hold.2⟩
            · exact hc'
          · intro c hc
            rcases foldl_enqStep_vis_new h w q0 _ (rest, vis) c hc with hc' | hc'
            · exact hinv.2.1 c hc'
            · exact hc'.1
          · intro c hc
            rcases foldl_enqStep_vis_new h w q0 _ (rest, vis) c hc with hc' | hc'
            · rcases hinv.2.2 c hc' with hcq | hccl
              · rcases List.mem_cons.mp hcq with hcq | hcq
                · subst hcq
                  refine Or.inr ⟨hm', ?_⟩
                  intro nb hnb hadj
                  rcases adj4_cases c nb hadj with hcs | hcs | hcs | hcs
                  · have hnb' : nb = (c.1 + (-1:ℤ), c.2 + (0:ℤ)) :=
                      Prod.ext (by omega) (by omega)
                    rw [hnb'] at hnb ⊢
                    exact foldl_enqStep_nbrs h w c _ (rest, vis) (-1, 0) (by simp) hnb
                  · have hnb' : nb = (c.1 + (1:ℤ), c.2 + (0:ℤ)) :=
                      Prod.ext (by omega) (by omega)
                    rw [hnb'] at hnb ⊢
                    exact foldl_enqStep_nbrs h w c _ (rest, vis) (1, 0) (by simp) hnb
                  · have hnb' : nb = (c.1 + (0:ℤ), c.2 + (-1:ℤ)) :=
                      Prod.ext (by omega) (by omega)
                    rw [hnb'] at hnb ⊢
                    exact foldl_enqStep_nbrs h w c _ (rest, vis) (0, -1) (by simp) hnb
                  · have hnb' : nb = (c.1 + (0:ℤ), c.2 + (1:ℤ)) :=
                      Prod.ext (by omega) (by omega)
                    rw [hnb'] at hnb ⊢
                    exact foldl_enqStep_nbrs h w c _ (rest, vis) (0, 1) (by simp) hnb
                · exact Or.inl (foldl_enqStep_queue_mono h w q0 _ (rest, vis) c hcq)
              · refine Or.inr ⟨hccl.1, ?_⟩
                intro nb hnb hadj
                exact foldl_enqStep_vis_mono h w q0 _ (rest, vis) nb (hccl.2 nb hnb hadj)
            · exact Or.inl hc'.2
        have hmeas' : 2 * unvisCount h w (bfsEnqueue h w q0 (rest, vis)).2 +
            (bfsEnqueue h w q0 (rest, vis)).1.length ≤ n := by
          have hstep := foldl_enqStep_measure h w q0
            [((-1:ℤ),(0:ℤ)), (1,0), (0,-1), (0,1)] (rest, vis)
          have : 2 * unvisCount h w vis + rest.length ≤ n := by
            simp only [List.length_cons] at hmeasure
            omega
          unfold bfsEnqueue
          dsimp only at hstep ⊢
          omega
        exact ih _ _ hinv' hmeas' hnone z
          (foldl_enqStep_vis_mono h w q0 _ (rest, vis) z hz) y hy

/-- If the grid contains any clear cell, `_find_nearest_clear` returns a
clear cell (the BFS visits the whole 4-connected grid before giving up). -/
theorem find_nearest_clear_finds (mask : Cell → Bool) (h w : ℕ) (s : Cell)
    (hs : inBounds h w s) (hclear : ∃ z, inBounds h w z ∧ mask z = false) :
    mask (find_nearest_clear mask h w s) = false := by
  unfold find_nearest_clear
  cases hres : bfsLoop mask h w (2 * h * w + 1) [s]
      (fun x => if x = s then true else false) with
  | some c =>
    simpa using bfsLoop_some_clear mask h w _ _ _ c hres
  | none =>
    exfalso
    obtain ⟨z, hzb, hzc⟩ := hclear
    have hinv : BfsInv mask h w [s] (fun x => if x = s then true else false) := by
      refine ⟨?_, ?_, ?_⟩
      · intro c hc
        simp at hc
        subst hc
        exact ⟨hs, by simp⟩
      · intro c hc
        by_cases hcs : c = s
        · rw [hcs]
          exact hs
        · simp [hcs] at hc
      · intro c hc
        by_cases hcs : c = s
        · exact Or.inl (by simp [hcs])
        · simp [hcs] at hc
    have hmeas : 2 * unvisCount h w (fun x => if x = s then true else false) +
        ([s] : List Cell).length ≤ 2 * h * w + 1 := by
      have h1 := unvisCount_le h w (fun x => if x = s then true else false)
      have h2 : 2 * h * w = 2 * (h * w) := by ring
      simp only [List.length_singleton]
      omega
    have hcomplete := bfsLoop_none_complete mask h w (2 * h * w + 1) [s] _ hinv hmeas hres
    have hreach := reach4_all h w s hs ((z.1 - s.1).natAbs + (z.2 - s.2).natAbs) z hzb rfl
    have := hcomplete s (by simp) z hreach
    rw [this] at hzc
    simp at hzc

/-- C1 (amended): provided the grid contains at least one traversable cell,
whenever `find_path` reports `path_clear = true` no cell of the underlying
A* cell path — including the possibly snapped start and end cells — lies on
an obstacle.  (On an all-obstacle grid with start = end the claim fails:
see the counterexample.) -/
theorem C1_clear_path_avoids_obstacles (mask : Cell → Bool) (h w : ℕ)
    (s e : Cell) (b : Bounds) (hs : inBounds h w s) (_he : inBounds h w e)
    (hclear : ∃ z, inBounds h w z ∧ mask z = false)
    (_hpc : (find_path mask h w s e b).path_clear = true) :
    ∀ p, astar mask h w (snap mask h w s) (snap mask h w e) = some p →
      ∀ x ∈ p, mask x = false := by
  have hsnap : mask (snap mask h w s) = false := by
    unfold snap
    by_cases hms : mask s
    · rw [if_pos hms]
      exact find_nearest_clear_finds mask h w s hs hclear
    · rw [if_neg hms]
      simpa using hms
  exact astar_clear mask h w _ _ hsnap

/-- Obstacle only at the origin of a 2×2 grid. -/
def cornerMask : Cell → Bool := fun c => decide (c = (0, 0))

/-- C1 witness: 2×2 grid with an obstacle at (0,0); the start (0,0) is
snapped to the clear cell (1,0) and the A* path [(1,0), (1,1)] avoids all
obstacles. -/
theorem C1_clear_path_witness :
    (inBounds 2 2 ((0:ℤ),(0:ℤ)) ∧ inBounds 2 2 ((1:ℤ),(1:ℤ)) ∧
     (∃ z, inBounds 2 2 z ∧ cornerMask z = false) ∧
     (find_path cornerMask 2 2 (0,0) (1,1) ⟨1,0,1,0⟩).path_clear = true ∧
     astar cornerMask 2 2 (snap cornerMask 2 2 (0,0)) (snap cornerMask 2 2 (1,1)) =
       some [(1,0),(1,1)]) ∧
    (∀ x ∈ ([(1,0),(1,1)] : List Cell), cornerMask x = false) :=
  ⟨⟨by decide, by decide, ⟨(1,0), by decide⟩, by rfl, by rfl⟩,
   C1_clear_path_avoids_obstacles cornerMask 2 2 (0,0) (1,1) ⟨1,0,1,0⟩
     (by decide) (by decide) ⟨(1,0), by decide⟩ (by rfl) [(1,0),(1,1)] (by rfl)⟩

/-! ### C5: determinism.  The heap counters in the open list are pairwise
distinct, so the `(f, counter, cell)` tuple order has a unique minimum and
any conforming heap-pop (`ValidSel`) yields the same run. -/

/-- Counter invariant: all queued counters are at most the counter state,
and pairwise distinct. -/
def CounterInv (st : AState) : Prop :=
  (∀ en ∈ st.openList, en.2.1 ≤ st.counter) ∧
  (st.openList.map (fun en => en.2.1)).Nodup

theorem relaxDir_counterInv (mask : Cell → Bool) (h w : ℕ) (goal cur : Cell)
    (gcur : ℕ) (st : AState) (dir : (ℤ × ℤ) × ℕ) (hinv : CounterInv st) :
    CounterInv (relaxDir mask h w goal cur gcur st dir) := by
  unfold relaxDir
  dsimp only
  split_ifs with h1 h2 h3 h4
  · exact hinv
  · exact hinv
  · constructor
    · intro en hen
      dsimp only at hen ⊢
      rcases List.mem_append.mp hen with hen | hen
      · exact le_trans (hinv.1 en hen) (Nat.le_succ _)
      · simp at hen
        rw [hen]
    · dsimp only
      rw [List.map_append]
      rw [List.nodup_append_comm]
      simp only [List.map_cons, List.map_nil, List.singleton_append, List.nodup_cons]
      refine ⟨?_, hinv.2⟩
      intro hcon
      obtain ⟨en, hen, hcnt⟩ := List.mem_map.mp hcon
      have := hinv.1 en hen
      omega
  · exact hinv
  · exact hinv

theorem foldl_relaxDir_counterInv (mask : Cell → Bool) (h w : ℕ) (goal cur : Cell)
    (gcur : ℕ) (dirs : List ((ℤ × ℤ) × ℕ)) (st : AState) (hinv : CounterInv st) :
    CounterInv (dirs.foldl (relaxDir mask h w goal cur gcur) st) := by
  induction dirs generalizing st with
  | nil => exact hinv
  | cons d rest ih => exact ih _ (relaxDir_counterInv mask h w goal cur gcur st d hinv)

/-- Removing the popped element (order preserved) keeps the counters
distinct. -/
theorem nodup_of_removed (m : Entry) (l₁ l₂ : List Entry)
    (hnd : ((l₁ ++ m :: l₂).map (fun en => en.2.1)).Nodup) :
    (((l₁ ++ l₂)).map (fun en => en.2.1)).Nodup := by
  rw [List.map_append, List.map_cons] at hnd
  rw [List.nodup_middle] at hnd
  rw [List.map_append]
  exact (List.nodup_cons.mp hnd).2

/-- Decomposition around an element with a fresh key is unique. -/
theorem append_cons_eq_of_nodup (m : Entry) (l₁ l₂ l₃ l₄ : List Entry)
    (hnd : ((l₁ ++ m :: l₂).map (fun en => en.2.1)).Nodup)
    (heq : l₁ ++ m :: l₂ = l₃ ++ m :: l₄) : l₁ = l₃ ∧ l₂ = l₄ := by
  induction l₁ generalizing l₃ with
  | nil =>
    cases l₃ with
    | nil =>
      simp only [List.nil_append, List.cons.injEq] at heq
      exact ⟨rfl, heq.2⟩
    | cons x t₃ =>
      exfalso
      simp only [List.nil_append, List.cons_append, List.cons.injEq] at heq
      obtain ⟨hx, hl₂⟩ := heq
      simp only [List.nil_append, List.map_cons, List.nodup_cons] at hnd
      apply hnd.1
      rw [hl₂]
      simp
  | cons x t₁ ih =>
    cases l₃ with
    | nil =>
      exfalso
      simp only [List.cons_append, List.nil_append, List.cons.injEq] at heq
      obtain ⟨hx, hrest⟩ := heq
      simp only [List.cons_append, List.map_cons, List.nodup_cons] at hnd
      apply hnd.1
      rw [hx]
      simp
    | cons y t₃ =>
      simp only [List.cons_append, List.cons.injEq] at heq
      obtain ⟨hxy, hrest⟩ := heq
      have hndt : ((t₁ ++ m :: l₂).map (fun en => en.2.1)).Nodup := by
        simp only [List.cons_append, List.map_cons, List.nodup_cons] at hnd
        exact hnd.2
      have := ih t₃ hndt hrest
      exact ⟨by rw [hxy, this.1], this.2⟩

/-- Any two conforming heap-pops agree on a list with distinct counters. -/
theorem validSel_eq (sel₁ sel₂ : List Entry → Option (Entry × List Entry))
    (h₁ : ValidSel sel₁) (h₂ : ValidSel sel₂) (l : List Entry)
    (hnd : (l.map (fun en => en.2.1)).Nodup) : sel₁ l = sel₂ l := by
  cases l with
  | nil => rw [(h₁.1 _).mpr rfl, (h₂.1 _).mpr rfl]
  | cons a t =>
    cases hs₁ : sel₁ (a :: t) with
    | none => exact absurd ((h₁.1 _).mp hs₁) (by simp)
    | some pr₁ =>
      cases hs₂ : sel₂ (a :: t) with
      | none => exact absurd ((h₂.1 _).mp hs₂) (by simp)
      | some pr₂ =>
        obtain ⟨m₁, l₁'⟩ := pr₁
        obtain ⟨m₂, l₂'⟩ := pr₂
        obtain ⟨a₁, b₁, hdec₁, hrest₁, hmin₁⟩ := h₁.2 _ _ _ hs₁
        obtain ⟨a₂, b₂, hdec₂, hrest₂, hmin₂⟩ := h₂.2 _ _ _ hs₂
        have hm₁mem : m₁ ∈ a :: t := by
          rw [hdec₁]
          simp
        have hm₂mem : m₂ ∈ a :: t := by
          rw [hdec₂]
          simp
        have hcnt : m₁.2.1 = m₂.2.1 :=
          entryLe_antisymm_counter (hmin₁ m₂ hm₂mem) (hmin₂ m₁ hm₁mem)
        have hm₁₂ : m₁ = m₂ := List.inj_on_of_nodup_map hnd hm₁mem hm₂mem hcnt
        subst hm₁₂
        have hnd₁ : ((a₁ ++ m₁ :: b₁).map (fun en => en.2.1)).Nodup := by
          rw [← hdec₁]
          exact hnd
        have hdd : a₁ ++ m₁ :: b₁ = a₂ ++ m₁ :: b₂ := by
          rw [← hdec₁, hdec₂]
        have huniq := append_cons_eq_of_nodup m₁ a₁ b₁ a₂ b₂ hnd₁ hdd
        rw [hrest₁, hrest₂, huniq.1, huniq.2]

theorem astarLoop_sel_irrel (sel₁ sel₂ : List Entry → Option (Entry × List Entry))
    (h₁ : ValidSel sel₁) (h₂ : ValidSel sel₂) (mask : Cell → Bool) (h w : ℕ)
    (goal : Cell) :
    ∀ (fuel : ℕ) (st : AState), CounterInv st →
      astarLoop sel₁ mask h w goal fuel st = astarLoop sel₂ mask h w goal fuel st := by
  intro fuel
  induction fuel with
  | zero => intro st _; rfl
  | succ n ih =>
    intro st hinv
    unfold astarLoop
    rw [validSel_eq sel₁ sel₂ h₁ h₂ st.openList hinv.2]
    cases hsel : sel₂ st.openList with
    | none => rfl
    | some pr =>
      obtain ⟨en, rest⟩ := pr
      dsimp only
      obtain ⟨l₁, l₂, hdec, hrest, -⟩ := h₂.2 _ _ _ hsel
      have hmemrest : ∀ x ∈ rest, x ∈ st.openList := by
        intro x hx
        rw [hrest] at hx
        rw [hdec]
        rcases List.mem_append.mp hx with hx | hx <;> simp [hx]
      have hrestnd : (rest.map (fun en => en.2.1)).Nodup := by
        rw [hrest]
        apply nodup_of_removed en l₁ l₂
        rw [← hdec]
        exact hinv.2
      have hrestinv : CounterInv { st with openList := rest } :=
        ⟨fun x hx => hinv.1 x (hmemrest x hx), hrestnd⟩
      split_ifs with hcl hgoal
      · exact ih _ hrestinv
      · rfl
      · apply ih
        apply foldl_relaxDir_counterInv
        exact ⟨fun x hx => hinv.1 x (hmemrest x hx), hrestnd⟩

/-- C5: determinism of `_astar`.  The priority queue orders entries by
`(f, counter)`; counters are assigned from a monotonically increasing
counter, so queued entries always carry pairwise-distinct counters, the
minimum is unique, and any conforming heap-pop implementation (`ValidSel` —
in particular two separate runs of `heapq` over identical inputs) produces
the identical cell sequence. -/
theorem C5_deterministic_astar (mask : Cell → Bool) (h w : ℕ) (s goal : Cell)
    (sel₁ sel₂ : List Entry → Option (Entry × List Entry))
    (h₁ : ValidSel sel₁) (h₂ : ValidSel sel₂) :
    astarWith sel₁ mask h w s goal = astarWith sel₂ mask h w s goal := by
  unfold astarWith
  apply astarLoop_sel_irrel sel₁ sel₂ h₁ h₂
  constructor
  · intro en hen
    simp [initState] at hen
    rw [hen]
    simp [initState]
  · simp [initState]

/-- C5 witness: the canonical heap-pop run twice on the 3×3 empty grid. -/
theorem C5_deterministic_witness :
    (ValidSel selectMin ∧ ValidSel selectMin) ∧
    astarWith selectMin emptyMask 3 3 (0,0) (2,2) =
      astarWith selectMin emptyMask 3 3 (0,0) (2,2) :=
  ⟨⟨selectMin_validSel, selectMin_validSel⟩,
   C5_deterministic_astar emptyMask 3 3 (0,0) (2,2) selectMin selectMin
     selectMin_validSel selectMin_validSel⟩

end GeoRoute
